import Mathlib

/-!
# Verification of the procgenmemtest UV-sphere generators

Shallow embedding of `procgenmemtest/points2d.py` and
`procgenmemtest/modelgen/{uvspheregeom,uvsphereegg}.py`.

Python floats are idealised as real numbers; generators become finite
lists; a Python exception becomes an `Option`/`Except` error value;
`collections.deque` objects (always used here with `maxlen` equal to the
number of segments) become lists with explicit rotate/extend operations.
-/

namespace ProcGen

/-! ## 3-D vectors (for stating the geometric properties) -/

/-- Points in 3-space, as used by the generated meshes. -/
abbrev R3 : Type := ℝ × ℝ × ℝ

/-- Componentwise difference of two 3-D points. -/
noncomputable def vsub (u v : R3) : R3 := (u.1 - v.1, u.2.1 - v.2.1, u.2.2 - v.2.2)

/-- Cross product of two 3-D vectors. -/
noncomputable def cross3 (u v : R3) : R3 :=
  (u.2.1 * v.2.2 - u.2.2 * v.2.1,
   u.2.2 * v.1 - u.1 * v.2.2,
   u.1 * v.2.1 - u.2.1 * v.1)

/-- Dot product of two 3-D vectors. -/
noncomputable def dot3 (u v : R3) : ℝ := u.1 * v.1 + u.2.1 * v.2.1 + u.2.2 * v.2.2

/-- Centroid of a triangle given by its three corners. -/
noncomputable def centroid3 (u v w : R3) : R3 :=
  ((u.1 + v.1 + w.1) / 3, (u.2.1 + v.2.1 + w.2.1) / 3, (u.2.2 + v.2.2 + w.2.2) / 3)

/-! ## points2d.py -/

/-- `math.tau`. -/
noncomputable def tau : ℝ := 2 * Real.pi

/-- Python float modulo: `a % b = a - b * floor (a / b)`. -/
noncomputable def pymod (a b : ℝ) : ℝ := a - b * ⌊a / b⌋

/-- The point yielded at index `i` by `yield_2d_circle_points`
(`points2d.py`, lines 8-29): angle `(i / quantity) * tau`, point
`(radius * cos angle + xc, radius * sin angle + yc)`. -/
noncomputable def circle_point (quantity : ℕ) (radius : ℝ) (center : ℝ × ℝ) (i : ℕ) :
    ℝ × ℝ :=
  let angle_radians : ℝ := ((i : ℝ) / (quantity : ℝ)) * tau
  (radius * Real.cos angle_radians + center.1, radius * Real.sin angle_radians + center.2)

/-- `yield_2d_circle_points` as the finite list of all yielded points. -/
noncomputable def yield_2d_circle_points (quantity : ℕ) (radius : ℝ) (center : ℝ × ℝ) :
    List (ℝ × ℝ) :=
  (List.range quantity).map (circle_point quantity radius center)

/-- The angular-step divisor of `yield_2d_circle_points_plus`
(`points2d.py`, lines 54-57): `quantity`, minus one when `include_last`. -/
def plus_divisor (quantity : ℕ) (include_last : Bool) : ℤ :=
  (quantity : ℤ) - (if include_last then 1 else 0)

/-- The unwrapped angle computed for index `i` inside
`yield_2d_circle_points_plus` (`points2d.py`, lines 44-69):
`(i / divisor) * (circle_proportion * tau) + start_angle` with
`start_angle = ((start_degrees % 360) / 360) * tau`. -/
noncomputable def plus_raw_angle (quantity : ℕ) (start_degrees : ℝ) (include_last : Bool)
    (circle_proportion : ℝ) (i : ℕ) : ℝ :=
  let tau_percentage : ℝ := pymod start_degrees 360 / 360
  let start_angle : ℝ := tau_percentage * tau
  let tau_proportion : ℝ := circle_proportion * tau
  ((i : ℝ) / ((plus_divisor quantity include_last : ℤ) : ℝ)) * tau_proportion + start_angle

/-- The angle actually used for index `i` by `yield_2d_circle_points_plus`
(`points2d.py`, lines 59-72): the raw angle, reduced by `tau` once when it
exceeds `tau`. -/
noncomputable def plus_angle (quantity : ℕ) (start_degrees : ℝ) (include_last : Bool)
    (circle_proportion : ℝ) (i : ℕ) : ℝ :=
  let angle_radians := plus_raw_angle quantity start_degrees include_last circle_proportion i
  if angle_radians > tau then angle_radians - tau else angle_radians

/-- The point yielded at index `i` by `yield_2d_circle_points_plus`
(`points2d.py`, lines 74-77). -/
noncomputable def plus_point (quantity : ℕ) (radius : ℝ) (start_degrees : ℝ)
    (include_last : Bool) (circle_proportion : ℝ) (center : ℝ × ℝ) (i : ℕ) : ℝ × ℝ :=
  let a := plus_angle quantity start_degrees include_last circle_proportion i
  (radius * Real.cos a + center.1, radius * Real.sin a + center.2)

/-- `yield_2d_circle_points_plus` as a finite list.  `none` models the
`ZeroDivisionError` raised when the first sample is consumed while the
divisor is zero (which happens exactly when `quantity = 1` and
`include_last` is true; for `quantity = 0` the loop body never runs). -/
noncomputable def yield_2d_circle_points_plus (quantity : ℕ) (radius : ℝ)
    (start_degrees : ℝ) (include_last : Bool) (circle_proportion : ℝ) (center : ℝ × ℝ) :
    Option (List (ℝ × ℝ)) :=
  if 0 < quantity ∧ plus_divisor quantity include_last = 0 then none
  else some ((List.range quantity).map
    (plus_point quantity radius start_degrees include_last circle_proportion center))

/-! ## `collections.deque` (always used with `maxlen = no_of_segments`) -/

/-- `deque.rotate(-1)`: the front element moves to the back. -/
def deque_rotate : List ℕ → List ℕ
  | [] => []
  | x :: xs => xs ++ [x]

/-- `deque[0]` (deques are nonempty at every access in the source). -/
def deque_front (d : List ℕ) : ℕ := d.headD 0

/-- `deque[-1]` (deques are nonempty at every access in the source). -/
def deque_back (d : List ℕ) : ℕ := d.getLastD 0

/-- `deque.extend(xs)` on a deque with `maxlen`: elements are appended on
the right, evicting from the left whatever exceeds `maxlen`. -/
def deque_extend (maxlen : ℕ) (d xs : List ℕ) : List ℕ :=
  (d ++ xs).drop ((d ++ xs).length - maxlen)

/-! ## uvspheregeom.py -/

/-- The flat-form output of `get_uv_sphere_geom`: the vertex table
(`GeomVertexData` rows, in `addData3` order) and the triangle list
(`GeomTriangles` vertex-index triples, in `addVertices` order). -/
structure Mesh where
  vertices : List R3
  triangles : List (ℕ × ℕ × ℕ)

/-- The mutable state of the ring loop of `get_uv_sphere_geom`:
the vertex table, the triangle list, and the two index deques. -/
structure GeomState where
  verts : List R3
  tris : List (ℕ × ℕ × ℕ)
  prev : List ℕ
  cur : List ℕ

/-- One iteration of the ring loop of `get_uv_sphere_geom`
(`uvspheregeom.py`, lines 134-277), processing the enumerated meridian
point `(ring_index, (segment_x, segment_z))`. -/
noncomputable def geom_ring_step (no_of_segments no_of_rings : ℕ) (radius : ℝ)
    (st : GeomState) (rp : ℕ × (ℝ × ℝ)) : GeomState :=
  let ring_index := rp.1
  let segment_x := rp.2.1
  let segment_z := rp.2.2
  let first_ring_index : ℕ := 0
  let last_ring_index : ℕ := no_of_rings - 1
  let index_of_last_point : ℕ := 2 + no_of_segments * no_of_rings - 1
  if ring_index = first_ring_index then
    let verts := st.verts ++ [((0 : ℝ), (0 : ℝ), (0 : ℝ))] ++
      (yield_2d_circle_points no_of_segments segment_x (0, 0)).map
        (fun q => (q.1, q.2, segment_z))
    let cur := deque_extend no_of_segments st.cur (List.range' 1 no_of_segments)
    let tc := (List.range no_of_segments).foldl
      (fun (tc : List (ℕ × ℕ × ℕ) × List ℕ) _ =>
        (tc.1 ++ [(0, deque_front tc.2, deque_back tc.2)], deque_rotate tc.2))
      (st.tris, cur)
    let prev := deque_extend no_of_segments st.prev tc.2
    ⟨verts, tc.1, prev, tc.2⟩
  else
    let verts := st.verts ++
      (yield_2d_circle_points no_of_segments segment_x (0, 0)).map
        (fun q => (q.1, q.2, segment_z))
    let first_index_on_ring := ring_index * no_of_segments + 1
    let cur := deque_extend no_of_segments st.cur
      (List.range' first_index_on_ring no_of_segments)
    let tpc := (List.range no_of_segments).foldl
      (fun (tpc : List (ℕ × ℕ × ℕ) × List ℕ × List ℕ) _ =>
        let index_a0 := deque_back tpc.2.1
        let index_a1 := deque_front tpc.2.1
        let index_b0 := deque_back tpc.2.2
        let index_b1 := deque_front tpc.2.2
        (tpc.1 ++ [(index_a0, index_b1, index_b0), (index_b1, index_a0, index_a1)],
         deque_rotate tpc.2.1, deque_rotate tpc.2.2))
      (st.tris, st.prev, cur)
    let prev := deque_extend no_of_segments tpc.2.1 tpc.2.2
    if ring_index = last_ring_index then
      let verts := verts ++ [((0 : ℝ), (0 : ℝ), radius * 2)]
      let tp := (List.range no_of_segments).foldl
        (fun (tp : List (ℕ × ℕ × ℕ) × List ℕ) _ =>
          (tp.1 ++ [(index_of_last_point, deque_back tp.2, deque_front tp.2)],
           deque_rotate tp.2))
        (tpc.1, prev)
      ⟨verts, tp.1, tp.2, tpc.2.2⟩
    else ⟨verts, tpc.1, prev, tpc.2.2⟩

/-- `get_uv_sphere_geom` (`uvspheregeom.py`, lines 28-291).  The
`vdata_name` argument only names the Panda3D vertex table and is elided.
Validation errors are the `ValueError`s of lines 47-56. -/
noncomputable def get_uv_sphere_geom (radius : ℝ) (no_of_segments no_of_rings : ℕ) :
    Except String Mesh :=
  if radius ≤ 0 then .error "radius must be > 0"
  else if no_of_segments < 3 then .error "no_of_segments must be >= 3"
  else if no_of_rings < 3 then .error "no_of_rings must be >= 3"
  else
    let quantity_of_points := no_of_rings + 2
    match yield_2d_circle_points_plus quantity_of_points radius 270 true (1/2) (0, radius) with
    | none => .error "ZeroDivisionError"
    | some pts =>
      let segment_points_xz := (pts.drop 1).take (quantity_of_points - 1 - 1)
      let st := segment_points_xz.enum.foldl
        (geom_ring_step no_of_segments no_of_rings radius) ⟨[], [], [], []⟩
      .ok ⟨st.verts, st.tris⟩

/-! ## uvsphereegg.py -/

/-- The polygon-soup output of `get_uv_sphere_egg_data`: the coordinate
system declaration, the vertex pool (the vertex created by the `k`-th
`makeNewVertex` call sits at position `k` and has handle `k`), and the
polygon records (each an ordered triple of vertex handles). -/
structure EggModel where
  z_up : Bool
  pool : List R3
  polygons : List (ℕ × ℕ × ℕ)

/-- The mutable state of the ring loop of `get_uv_sphere_egg_data`. -/
structure EggState where
  pool : List R3
  polys : List (ℕ × ℕ × ℕ)
  prev : List ℕ
  cur : List ℕ

/-- `EggVertexPool.makeNewVertex`: appends the vertex to the pool and
returns its handle (its creation index). -/
def make_new_vertex (pool : List R3) (p : R3) : List R3 × ℕ :=
  (pool ++ [p], pool.length)

/-- One iteration of the ring loop of `get_uv_sphere_egg_data`
(`uvsphereegg.py`, lines 143-301). -/
noncomputable def egg_ring_step (no_of_segments no_of_rings : ℕ) (radius : ℝ)
    (st : EggState) (rp : ℕ × (ℝ × ℝ)) : EggState :=
  let ring_index := rp.1
  let segment_x := rp.2.1
  let segment_z := rp.2.2
  let first_ring_index : ℕ := 0
  let last_ring_index : ℕ := no_of_rings - 1
  if ring_index = first_ring_index then
    let pv := make_new_vertex st.pool ((0 : ℝ), (0 : ℝ), (0 : ℝ))
    let first_vertex := pv.2
    let ph := ((yield_2d_circle_points no_of_segments segment_x (0, 0)).map
        (fun q => ((q.1, q.2, segment_z) : R3))).foldl
      (fun (ph : List R3 × List ℕ) p => ((make_new_vertex ph.1 p).1, ph.2 ++ [(make_new_vertex ph.1 p).2]))
      (pv.1, [])
    let cur := deque_extend no_of_segments st.cur ph.2
    let tc := (List.range no_of_segments).foldl
      (fun (tc : List (ℕ × ℕ × ℕ) × List ℕ) _ =>
        (tc.1 ++ [(first_vertex, deque_front tc.2, deque_back tc.2)], deque_rotate tc.2))
      (st.polys, cur)
    let prev := deque_extend no_of_segments st.prev tc.2
    ⟨ph.1, tc.1, prev, tc.2⟩
  else
    let ph := ((yield_2d_circle_points no_of_segments segment_x (0, 0)).map
        (fun q => ((q.1, q.2, segment_z) : R3))).foldl
      (fun (ph : List R3 × List ℕ) p => ((make_new_vertex ph.1 p).1, ph.2 ++ [(make_new_vertex ph.1 p).2]))
      (st.pool, [])
    let cur := deque_extend no_of_segments st.cur ph.2
    let tpc := (List.range no_of_segments).foldl
      (fun (tpc : List (ℕ × ℕ × ℕ) × List ℕ × List ℕ) _ =>
        let vertex_a0 := deque_back tpc.2.1
        let vertex_a1 := deque_front tpc.2.1
        let vertex_b0 := deque_back tpc.2.2
        let vertex_b1 := deque_front tpc.2.2
        (tpc.1 ++ [(vertex_a0, vertex_b1, vertex_b0), (vertex_b1, vertex_a0, vertex_a1)],
         deque_rotate tpc.2.1, deque_rotate tpc.2.2))
      (st.polys, st.prev, cur)
    let prev := deque_extend no_of_segments tpc.2.1 tpc.2.2
    if ring_index = last_ring_index then
      let pv := make_new_vertex ph.1 ((0 : ℝ), (0 : ℝ), radius * 2)
      let last_vertex := pv.2
      let tp := (List.range no_of_segments).foldl
        (fun (tp : List (ℕ × ℕ × ℕ) × List ℕ) _ =>
          (tp.1 ++ [(last_vertex, deque_back tp.2, deque_front tp.2)], deque_rotate tp.2))
        (tpc.1, prev)
      ⟨pv.1, tp.1, tp.2, tpc.2.2⟩
    else ⟨ph.1, tpc.1, prev, tpc.2.2⟩

/-- `get_uv_sphere_egg_data` (`uvsphereegg.py`, lines 26-310).  The
`vpool_name` argument only names the pool and is elided. -/
noncomputable def get_uv_sphere_egg_data (radius : ℝ) (no_of_segments no_of_rings : ℕ) :
    Except String EggModel :=
  if radius ≤ 0 then .error "radius must be > 0"
  else if no_of_segments < 3 then .error "no_of_segments must be >= 3"
  else if no_of_rings < 3 then .error "no_of_rings must be >= 3"
  else
    let quantity_of_points := no_of_rings + 2
    match yield_2d_circle_points_plus quantity_of_points radius 270 true (1/2) (0, radius) with
    | none => .error "ZeroDivisionError"
    | some pts =>
      let segment_points_xz := (pts.drop 1).take (quantity_of_points - 1 - 1)
      let st := segment_points_xz.enum.foldl
        (egg_ring_step no_of_segments no_of_rings radius) ⟨[], [], [], []⟩
      .ok ⟨true, st.pool, st.polys⟩

/-! ## Closed forms of the generated data

The ring traversal shared by both generators is captured in closed form:
ring `r` (0-based, `r < rings`), position `s` (0-based, `s < segments`)
has identity `1 + r*segments + s`; the south pole has identity `0`, the
north pole `1 + rings*segments`.  The triangle list is the south fan,
then the ring bridges, then the north fan, with the sliding windows'
front/back accesses expressed through `m1` (decrement modulo `n`). -/

/-- `(k - 1) mod n`: the ring position preceding position `k`. -/
def m1 (n k : ℕ) : ℕ := (k + n - 1) % n

/-- Flat-form vertex identity of ring `r` (0-based), position `s`. -/
def vtx (n r s : ℕ) : ℕ := 1 + r * n + s

/-- The south fan: for `k < n` the triple `(pole, current.front, current.back)`
emitted after `k` rotations of the ring-0 window. -/
def southTris (n : ℕ) : List (ℕ × ℕ × ℕ) :=
  (List.range n).map fun k => ((0 : ℕ), vtx n 0 k, vtx n 0 (m1 n k))

/-- The bridge between ring `p` and ring `p+1`: for `k < n` the two triples
`(previous.back, current.front, current.back)` and
`(current.front, previous.back, previous.front)` emitted after `k` lockstep
rotations of the two windows. -/
def bridgeTris (n p : ℕ) : List (ℕ × ℕ × ℕ) :=
  (List.range n).flatMap fun k =>
    [(vtx n p (m1 n k), vtx n (p + 1) k, vtx n (p + 1) (m1 n k)),
     (vtx n (p + 1) k, vtx n p (m1 n k), vtx n p k)]

/-- The north fan: for `k < n` the triple `(northPole, previous.back,
previous.front)` emitted after `k` rotations of the last ring's window.
Note `vtx n R 0 = 1 + R*n` is the north-pole identity. -/
def northTris (n R : ℕ) : List (ℕ × ℕ × ℕ) :=
  (List.range n).map fun k => (vtx n R 0, vtx n (R - 1) (m1 n k), vtx n (R - 1) k)

/-- The full triangle list emitted by the traversal. -/
def sphereTris (n R : ℕ) : List (ℕ × ℕ × ℕ) :=
  southTris n ++ (List.range (R - 1)).flatMap (bridgeTris n) ++ northTris n R


/- ### Directed-edge structure of the triangle list (C4) -/

/-- The three directed edges of a triangle, in emitted vertex order. -/
def dirEdges (t : ℕ × ℕ × ℕ) : List (ℕ × ℕ) :=
  [(t.1, t.2.1), (t.2.1, t.2.2), (t.2.2, t.1)]

def dirEdgeList (L : List (ℕ × ℕ × ℕ)) : List (ℕ × ℕ) := L.flatMap dirEdges

def famS1 (n k : ℕ) : ℕ × ℕ := (0, vtx n 0 k)
def famS2 (n k : ℕ) : ℕ × ℕ := (vtx n 0 k, vtx n 0 (m1 n k))
def famS3 (n k : ℕ) : ℕ × ℕ := (vtx n 0 (m1 n k), 0)
def famA1 (n p k : ℕ) : ℕ × ℕ := (vtx n p (m1 n k), vtx n (p + 1) k)
def famA2 (n p k : ℕ) : ℕ × ℕ := (vtx n (p + 1) k, vtx n (p + 1) (m1 n k))
def famA3 (n p k : ℕ) : ℕ × ℕ := (vtx n (p + 1) (m1 n k), vtx n p (m1 n k))
def famB1 (n p k : ℕ) : ℕ × ℕ := (vtx n (p + 1) k, vtx n p (m1 n k))
def famB2 (n p k : ℕ) : ℕ × ℕ := (vtx n p (m1 n k), vtx n p k)
def famB3 (n p k : ℕ) : ℕ × ℕ := (vtx n p k, vtx n (p + 1) k)
def famN1 (n R k : ℕ) : ℕ × ℕ := (vtx n R 0, vtx n (R - 1) (m1 n k))
def famN2 (n R k : ℕ) : ℕ × ℕ := (vtx n (R - 1) (m1 n k), vtx n (R - 1) k)
def famN3 (n R k : ℕ) : ℕ × ℕ := (vtx n (R - 1) k, vtx n R 0)

def famBridge (n p : ℕ) : List (ℕ × ℕ) :=
  ((List.range n).map (famA1 n p) ++ (List.range n).map (famA2 n p) ++
    (List.range n).map (famA3 n p)) ++
  ((List.range n).map (famB1 n p) ++ (List.range n).map (famB2 n p) ++
    (List.range n).map (famB3 n p))

def reorgEdges (n R : ℕ) : List (ℕ × ℕ) :=
  ((List.range n).map (famS1 n) ++ (List.range n).map (famS2 n) ++
    (List.range n).map (famS3 n)) ++
  (List.range (R - 1)).flatMap (famBridge n) ++
  ((List.range n).map (famN1 n R) ++ (List.range n).map (famN2 n R) ++
    (List.range n).map (famN3 n R))

/-- Serial classifier used to show the reorganized edge list has no
duplicates: it decodes an edge's endpoints back to ring/position indices and
assigns each edge family its own block of consecutive codes. -/
def edgeCode (n R : ℕ) : ℕ × ℕ → ℕ
  | (u, v) =>
    if u = 0 then v - 1
    else if v = 0 then 2 * n + u % n
    else if u = 1 + R * n then (6 * R - 3) * n + ((v - 1) % n + 1) % n
    else if v = 1 + R * n then (6 * R - 1) * n + (u - 1) % n
    else if (u - 1) / n = (v - 1) / n then
      if (v - 1) % n = m1 n ((u - 1) % n) then
        if (u - 1) / n = 0 then n + (u - 1) % n
        else (4 + 6 * ((u - 1) / n - 1)) * n + (u - 1) % n
      else
        if (u - 1) / n = R - 1 then (6 * R - 2) * n + (v - 1) % n
        else (7 + 6 * ((u - 1) / n)) * n + (v - 1) % n
    else if (u - 1) / n = (v - 1) / n + 1 then
      if (u - 1) % n = (v - 1) % n then (5 + 6 * ((v - 1) / n)) * n + ((u - 1) % n + 1) % n
      else (6 + 6 * ((v - 1) / n)) * n + (u - 1) % n
    else
      if (u - 1) % n = m1 n ((v - 1) % n) then (3 + 6 * ((u - 1) / n)) * n + (v - 1) % n
      else (8 + 6 * ((u - 1) / n)) * n + (u - 1) % n

/-- Meridian colatitude of ring `r` (0-based): `(r+1)/(R+1) * π`. -/
noncomputable def phi (R r : ℕ) : ℝ := ((r : ℝ) + 1) / ((R : ℝ) + 1) * Real.pi

/-- Longitude of ring position `s`: `2π s / n`. -/
noncomputable def theta (n s : ℕ) : ℝ := 2 * Real.pi * (s : ℝ) / (n : ℝ)

/-- Position of the ring vertex `(r, s)`: planar radius `a sin φ`,
height `a (1 - cos φ)`, longitude `θ`. -/
noncomputable def ringPos (a : ℝ) (n R r s : ℕ) : R3 :=
  (a * Real.sin (phi R r) * Real.cos (theta n s),
   a * Real.sin (phi R r) * Real.sin (theta n s),
   a * (1 - Real.cos (phi R r)))

/-- The full vertex table: south pole, the `R` rings in order (each of `n`
positions in order), north pole. -/
noncomputable def sphereVerts (a : ℝ) (n R : ℕ) : List R3 :=
  ((0 : ℝ), (0 : ℝ), (0 : ℝ)) ::
    ((List.range R).flatMap (fun r => (List.range n).map (ringPos a n R r)) ++
      [((0 : ℝ), (0 : ℝ), 2 * a)])

/-! ## Deque lemmas -/

/-- The window of ring-base `b` after `k` rotations: position `j` of the
deque holds identity `b + (j + k) % n`. -/
def ringIdx (b n k : ℕ) : List ℕ := (List.range n).map fun j => b + (j + k) % n

theorem length_ringIdx (b n k : ℕ) : (ringIdx b n k).length = n := by
  simp [ringIdx]

theorem deque_extend_full (n : ℕ) (d xs : List ℕ) (h : xs.length = n) :
    deque_extend n d xs = xs := by
  unfold deque_extend
  rw [List.length_append, h, Nat.add_sub_cancel, List.drop_left]

theorem ringIdx_zero (b n : ℕ) : ringIdx b n 0 = List.range' b n := by
  rw [ringIdx, List.range'_eq_map_range]
  apply List.map_congr_left
  intro j hj
  rw [List.mem_range] at hj
  rw [Nat.add_zero, Nat.mod_eq_of_lt hj]

theorem ringIdx_cycle (b n k : ℕ) : ringIdx b n (k + n) = ringIdx b n k := by
  unfold ringIdx
  apply List.map_congr_left
  intro j _
  rw [← Nat.add_assoc, Nat.add_mod_right]

theorem deque_front_ringIdx (b n k : ℕ) (hn : 0 < n) :
    deque_front (ringIdx b n k) = b + k % n := by
  obtain ⟨m, rfl⟩ : ∃ m, n = m + 1 := ⟨n - 1, by omega⟩
  rw [ringIdx, List.range_succ_eq_map, List.map_cons]
  simp [deque_front]

theorem deque_back_ringIdx (b n k : ℕ) (hn : 0 < n) :
    deque_back (ringIdx b n k) = b + (n - 1 + k) % n := by
  obtain ⟨m, rfl⟩ : ∃ m, n = m + 1 := ⟨n - 1, by omega⟩
  rw [ringIdx, List.range_succ, List.map_append, List.map_singleton]
  rw [deque_back, List.getLastD_concat]
  have h : m + 1 - 1 + k = m + k := by omega
  rw [h]

theorem deque_rotate_ringIdx (b n k : ℕ) (hn : 0 < n) :
    deque_rotate (ringIdx b n k) = ringIdx b n (k + 1) := by
  obtain ⟨m, rfl⟩ : ∃ m, n = m + 1 := ⟨n - 1, by omega⟩
  rw [ringIdx, List.range_succ_eq_map, List.map_cons, deque_rotate]
  rw [ringIdx, List.range_succ, List.map_append, List.map_singleton]
  congr 1
  · rw [List.map_map]
    apply List.map_congr_left
    intro j _
    simp only [Function.comp_apply, Nat.succ_eq_add_one]
    congr 2
    omega
  · congr 2
    rw [Nat.zero_add]
    conv_rhs => rw [show m + (k + 1) = k + (m + 1) from by omega, Nat.add_mod_right]

/-! ## Inner-loop fold lemmas -/

theorem fan_foldl (n : ℕ) (hn : 0 < n) (a0 b k : ℕ) (ts : List (ℕ × ℕ × ℕ)) (c : ℕ) :
    (List.range c).foldl
      (fun (tc : List (ℕ × ℕ × ℕ) × List ℕ) _ =>
        (tc.1 ++ [(a0, deque_front tc.2, deque_back tc.2)], deque_rotate tc.2))
      (ts, ringIdx b n k)
    = (ts ++ (List.range c).map
        (fun i => (a0, b + (k + i) % n, b + (n - 1 + (k + i)) % n)),
       ringIdx b n (k + c)) := by
  induction c with
  | zero => simp
  | succ c ih =>
    rw [List.range_succ, List.foldl_append, ih, List.foldl_cons, List.foldl_nil,
        List.map_append, List.map_singleton, ← List.append_assoc]
    dsimp only
    rw [deque_front_ringIdx b n (k + c) hn, deque_back_ringIdx b n (k + c) hn,
        deque_rotate_ringIdx b n (k + c) hn, ← Nat.add_assoc]
    simp [Nat.add_assoc]

theorem north_foldl (n : ℕ) (hn : 0 < n) (a0 b k : ℕ) (ts : List (ℕ × ℕ × ℕ)) (c : ℕ) :
    (List.range c).foldl
      (fun (tp : List (ℕ × ℕ × ℕ) × List ℕ) _ =>
        (tp.1 ++ [(a0, deque_back tp.2, deque_front tp.2)], deque_rotate tp.2))
      (ts, ringIdx b n k)
    = (ts ++ (List.range c).map
        (fun i => (a0, b + (n - 1 + (k + i)) % n, b + (k + i) % n)),
       ringIdx b n (k + c)) := by
  induction c with
  | zero => simp
  | succ c ih =>
    rw [List.range_succ, List.foldl_append, ih, List.foldl_cons, List.foldl_nil,
        List.map_append, List.map_singleton, ← List.append_assoc]
    dsimp only
    rw [deque_back_ringIdx b n (k + c) hn, deque_front_ringIdx b n (k + c) hn,
        deque_rotate_ringIdx b n (k + c) hn, ← Nat.add_assoc]
    simp [Nat.add_assoc]

theorem bridge_foldl (n : ℕ) (hn : 0 < n) (bp bc k : ℕ) (ts : List (ℕ × ℕ × ℕ)) (c : ℕ) :
    (List.range c).foldl
      (fun (tpc : List (ℕ × ℕ × ℕ) × List ℕ × List ℕ) _ =>
        let index_a0 := deque_back tpc.2.1
        let index_a1 := deque_front tpc.2.1
        let index_b0 := deque_back tpc.2.2
        let index_b1 := deque_front tpc.2.2
        (tpc.1 ++ [(index_a0, index_b1, index_b0), (index_b1, index_a0, index_a1)],
         deque_rotate tpc.2.1, deque_rotate tpc.2.2))
      (ts, ringIdx bp n k, ringIdx bc n k)
    = (ts ++ (List.range c).flatMap
        (fun i =>
          [(bp + (n - 1 + (k + i)) % n, bc + (k + i) % n, bc + (n - 1 + (k + i)) % n),
           (bc + (k + i) % n, bp + (n - 1 + (k + i)) % n, bp + (k + i) % n)]),
       ringIdx bp n (k + c), ringIdx bc n (k + c)) := by
  induction c with
  | zero => simp
  | succ c ih =>
    rw [List.range_succ, List.foldl_append, ih, List.foldl_cons, List.foldl_nil,
        List.flatMap_append, ← List.append_assoc]
    dsimp only
    rw [deque_front_ringIdx bp n (k + c) hn, deque_back_ringIdx bp n (k + c) hn,
        deque_front_ringIdx bc n (k + c) hn, deque_back_ringIdx bc n (k + c) hn,
        deque_rotate_ringIdx bp n (k + c) hn, deque_rotate_ringIdx bc n (k + c) hn,
        ← Nat.add_assoc]
    simp [Nat.add_assoc]

/-! ## Raw fold output in closed form -/

theorem flatMap_congr_left {α β : Type} {l : List α} {f g : α → List β}
    (h : ∀ a ∈ l, f a = g a) : l.flatMap f = l.flatMap g := by
  induction l with
  | nil => rfl
  | cons x xs ih =>
    rw [List.flatMap_cons, List.flatMap_cons, h x (by simp),
        ih fun a ha => h a (by simp [ha])]

theorem south_raw (n : ℕ) (hn : 0 < n) :
    (List.range n).map (fun i => ((0 : ℕ), 1 + (0 + i) % n, 1 + (n - 1 + (0 + i)) % n))
      = southTris n := by
  unfold southTris
  apply List.map_congr_left
  intro i hi
  rw [List.mem_range] at hi
  rw [Nat.zero_add, show n - 1 + i = i + n - 1 from by omega]
  simp only [vtx, m1, Nat.mod_eq_of_lt hi, Prod.mk.injEq]
  refine ⟨trivial, by ring, by ring⟩

theorem bridge_raw (n p bp bc : ℕ) (hn : 0 < n) (hbp : bp = p * n + 1)
    (hbc : bc = (p + 1) * n + 1) :
    ((List.range n).flatMap fun i =>
      [(bp + (n - 1 + (0 + i)) % n, bc + (0 + i) % n, bc + (n - 1 + (0 + i)) % n),
       (bc + (0 + i) % n, bp + (n - 1 + (0 + i)) % n, bp + (0 + i) % n)])
      = bridgeTris n p := by
  subst hbp hbc
  unfold bridgeTris
  apply flatMap_congr_left
  intro i hi
  rw [List.mem_range] at hi
  rw [Nat.zero_add, show n - 1 + i = i + n - 1 from by omega]
  simp only [vtx, m1, Nat.mod_eq_of_lt hi, Prod.mk.injEq, List.cons.injEq,
    and_true, List.cons_ne_nil]
  refine ⟨⟨by ring, by ring, by ring⟩, by ring, by ring, by ring⟩

theorem north_raw (n R N b : ℕ) (hn : 0 < n) (hN : N = 1 + R * n)
    (hb : b = (R - 1) * n + 1) :
    (List.range n).map
      (fun i => (N, b + (n - 1 + (0 + i)) % n, b + (0 + i) % n))
      = northTris n R := by
  subst hN hb
  unfold northTris
  apply List.map_congr_left
  intro i hi
  rw [List.mem_range] at hi
  rw [Nat.zero_add, show n - 1 + i = i + n - 1 from by omega]
  simp only [vtx, m1, Nat.mod_eq_of_lt hi, Prod.mk.injEq]
  refine ⟨by ring, by ring, by ring⟩

/-! ## The sampled meridian -/

theorem cos_pi_add_pi_div_two : Real.cos (Real.pi + Real.pi / 2) = 0 := by
  rw [Real.cos_add, Real.cos_pi, Real.sin_pi, Real.cos_pi_div_two]
  ring

theorem sin_pi_add_pi_div_two : Real.sin (Real.pi + Real.pi / 2) = -1 := by
  rw [Real.sin_add, Real.cos_pi, Real.sin_pi, Real.sin_pi_div_two]
  ring

theorem pymod_270_360 : pymod (270 : ℝ) 360 = 270 := by
  unfold pymod
  norm_num

theorem plus_raw_angle_meridian (R i : ℕ) :
    plus_raw_angle (R + 2) 270 true (1 / 2) i
      = (i : ℝ) / ((R : ℝ) + 1) * Real.pi + (Real.pi + Real.pi / 2) := by
  unfold plus_raw_angle tau
  rw [pymod_270_360]
  have hdiv : ((plus_divisor (R + 2) true : ℤ) : ℝ) = (R : ℝ) + 1 := by
    simp only [plus_divisor, if_pos]
    push_cast
    ring
  rw [hdiv]
  have hR1 : ((R : ℝ) + 1) ≠ 0 := by positivity
  field_simp
  ring

theorem cos_plus_angle_meridian (R r : ℕ) :
    Real.cos (plus_angle (R + 2) 270 true (1 / 2) (r + 1)) = Real.sin (phi R r) := by
  unfold plus_angle
  rw [plus_raw_angle_meridian]
  have key : Real.cos (((r : ℕ) + 1 : ℕ) / ((R : ℝ) + 1) * Real.pi + (Real.pi + Real.pi / 2))
      = Real.sin (phi R r) := by
    rw [Real.cos_add, cos_pi_add_pi_div_two, sin_pi_add_pi_div_two]
    push_cast
    unfold phi
    ring
  push_cast at key ⊢
  split
  · rw [show ((r : ℝ) + 1) / ((R : ℝ) + 1) * Real.pi + (Real.pi + Real.pi / 2) - tau
        = (((r : ℝ) + 1) / ((R : ℝ) + 1) * Real.pi + (Real.pi + Real.pi / 2)) - 2 * Real.pi
        from by unfold tau; ring]
    rw [Real.cos_sub_two_pi]
    exact key
  · exact key

theorem sin_plus_angle_meridian (R r : ℕ) :
    Real.sin (plus_angle (R + 2) 270 true (1 / 2) (r + 1)) = -Real.cos (phi R r) := by
  unfold plus_angle
  rw [plus_raw_angle_meridian]
  have key : Real.sin (((r : ℝ) + 1) / ((R : ℝ) + 1) * Real.pi + (Real.pi + Real.pi / 2))
      = -Real.cos (phi R r) := by
    rw [Real.sin_add, cos_pi_add_pi_div_two, sin_pi_add_pi_div_two]
    unfold phi
    ring
  push_cast
  split
  · rw [show ((r : ℝ) + 1) / ((R : ℝ) + 1) * Real.pi + (Real.pi + Real.pi / 2) - tau
        = (((r : ℝ) + 1) / ((R : ℝ) + 1) * Real.pi + (Real.pi + Real.pi / 2)) - 2 * Real.pi
        from by unfold tau; ring]
    rw [Real.sin_sub_two_pi]
    exact key
  · exact key

/-- The meridian sample at index `r+1` (ring `r`) gives the ring's planar
radius `a sin φ` and height `a (1 - cos φ)`. -/
theorem meridian_point (a : ℝ) (R r : ℕ) :
    plus_point (R + 2) a 270 true (1 / 2) (0, a) (r + 1)
      = (a * Real.sin (phi R r), a * (1 - Real.cos (phi R r))) := by
  unfold plus_point
  dsimp only
  rw [cos_plus_angle_meridian, sin_plus_angle_meridian]
  simp only [Prod.mk.injEq]
  constructor
  · ring
  · ring

/-- The 3-D points of ring `r` produced from its meridian sample. -/
theorem ring_verts_eq (a : ℝ) (n R r : ℕ) :
    (yield_2d_circle_points n (a * Real.sin (phi R r)) (0, 0)).map
        (fun q => ((q.1, q.2, a * (1 - Real.cos (phi R r))) : R3))
      = (List.range n).map (ringPos a n R r) := by
  unfold yield_2d_circle_points
  rw [List.map_map]
  apply List.map_congr_left
  intro s _
  simp only [Function.comp_apply, circle_point, ringPos, theta, tau, Prod.mk.injEq]
  refine ⟨by ring, by ring, trivial⟩

/-! ## The three shapes of a ring-loop iteration -/

theorem geom_step_first (n R : ℕ) (a sx sz : ℝ) (hn : 0 < n)
    (v0 : List R3) (t0 : List (ℕ × ℕ × ℕ)) :
    geom_ring_step n R a ⟨v0, t0, [], []⟩ (0, (sx, sz))
      = ⟨v0 ++ [((0 : ℝ), (0 : ℝ), (0 : ℝ))] ++
           (yield_2d_circle_points n sx (0, 0)).map (fun q => (q.1, q.2, sz)),
         t0 ++ southTris n, List.range' 1 n, List.range' 1 n⟩ := by
  unfold geom_ring_step
  rw [if_pos rfl]
  dsimp only
  rw [deque_extend_full n [] _ (by simp)]
  rw [← ringIdx_zero 1 n]
  rw [fan_foldl n hn 0 1 0 t0 n]
  rw [south_raw n hn]
  rw [ringIdx_cycle 1 n 0, ringIdx_zero 1 n]
  rw [deque_extend_full n [] _ (by simp)]

theorem geom_step_mid (n R : ℕ) (a sx sz : ℝ) (hn : 0 < n) (p k bcur : ℕ)
    (hk0 : k ≠ 0) (hkl : k ≠ R - 1) (hp : p + 1 = k) (hbc : bcur = k * n + 1)
    (v0 : List R3) (t0 : List (ℕ × ℕ × ℕ)) :
    geom_ring_step n R a
        ⟨v0, t0, List.range' (p * n + 1) n, List.range' (p * n + 1) n⟩
        (k, (sx, sz))
      = ⟨v0 ++ (yield_2d_circle_points n sx (0, 0)).map (fun q => (q.1, q.2, sz)),
         t0 ++ bridgeTris n p, List.range' bcur n, List.range' bcur n⟩ := by
  subst hp hbc
  unfold geom_ring_step
  rw [if_neg hk0]
  dsimp only
  rw [deque_extend_full n _ _ (by simp)]
  rw [← ringIdx_zero (p * n + 1) n, ← ringIdx_zero ((p + 1) * n + 1) n]
  rw [bridge_foldl n hn (p * n + 1) ((p + 1) * n + 1) 0 t0 n]
  rw [bridge_raw n p (p * n + 1) ((p + 1) * n + 1) hn rfl rfl]
  rw [if_neg hkl]
  rw [ringIdx_cycle (p * n + 1) n 0, ringIdx_cycle ((p + 1) * n + 1) n 0,
      ringIdx_zero, ringIdx_zero]
  rw [deque_extend_full n _ _ (by simp)]

theorem geom_step_last (n R : ℕ) (a sx sz : ℝ) (hn : 0 < n) (p k : ℕ)
    (hk0 : k ≠ 0) (hkl : k = R - 1) (hp : p + 1 = k)
    (v0 : List R3) (t0 : List (ℕ × ℕ × ℕ)) :
    geom_ring_step n R a
        ⟨v0, t0, List.range' (p * n + 1) n, List.range' (p * n + 1) n⟩
        (k, (sx, sz))
      = ⟨v0 ++ (yield_2d_circle_points n sx (0, 0)).map (fun q => (q.1, q.2, sz)) ++
           [((0 : ℝ), (0 : ℝ), a * 2)],
         t0 ++ bridgeTris n p ++ northTris n R,
         List.range' (k * n + 1) n, List.range' (k * n + 1) n⟩ := by
  subst hp
  unfold geom_ring_step
  rw [if_neg hk0]
  dsimp only
  rw [deque_extend_full n _ _ (by simp)]
  rw [← ringIdx_zero (p * n + 1) n, ← ringIdx_zero ((p + 1) * n + 1) n]
  rw [bridge_foldl n hn (p * n + 1) ((p + 1) * n + 1) 0 t0 n]
  rw [bridge_raw n p (p * n + 1) ((p + 1) * n + 1) hn rfl rfl]
  rw [if_pos hkl]
  dsimp only
  rw [deque_extend_full n _ _ (by simp [length_ringIdx])]
  rw [ringIdx_cycle ((p + 1) * n + 1) n 0]
  rw [north_foldl n hn (2 + n * R - 1) ((p + 1) * n + 1) 0 _ n]
  rw [north_raw n R (2 + n * R - 1) ((p + 1) * n + 1) hn
      (by rw [Nat.mul_comm n R]; omega)
      (congrArg (fun t => t * n + 1) hkl)]
  rw [ringIdx_cycle ((p + 1) * n + 1) n 0, ringIdx_zero]

/-! ## Assembling the whole generator run -/

theorem enum_map_range {α : Type} (f : ℕ → α) (R : ℕ) :
    ((List.range R).map f).enum = (List.range R).map fun r => (r, f r) := by
  apply List.ext_getElem
  · simp
  · intro i h1 h2
    simp [List.getElem_enum]

theorem drop_take_map_range {α : Type} (g : ℕ → α) (R : ℕ) :
    (((List.range (R + 2)).map g).drop 1).take R
      = (List.range R).map fun r => g (r + 1) := by
  apply List.ext_getElem
  · simp
  · intro i h1 h2
    simp only [List.getElem_take, List.getElem_drop, List.getElem_map, List.getElem_range]
    rw [Nat.add_comm]

/-- The generator-loop state after processing rings `0 .. k-1`, for
`k = p + 1 ≤ R - 1` (before the north fan is emitted). -/
theorem geom_loop_inv (a : ℝ) (n R : ℕ) (hn : 3 ≤ n) (hR : 3 ≤ R) :
    ∀ k p, p + 1 = k → k ≤ R - 1 →
    ((List.range k).map fun r =>
        (r, plus_point (R + 2) a 270 true (1 / 2) (0, a) (r + 1))).foldl
        (geom_ring_step n R a) ⟨[], [], [], []⟩
      = ⟨((0 : ℝ), (0 : ℝ), (0 : ℝ)) ::
           (List.range k).flatMap (fun r => (List.range n).map (ringPos a n R r)),
         southTris n ++ (List.range p).flatMap (bridgeTris n),
         List.range' (p * n + 1) n, List.range' (p * n + 1) n⟩ := by
  intro k
  induction k with
  | zero => intro p hp; omega
  | succ k ih =>
    intro p hp hk2
    have hpk : p = k := by omega
    subst hpk
    rcases Nat.eq_zero_or_pos p with rfl | hkpos
    · rw [List.range_succ, List.range_zero, List.nil_append, List.map_singleton,
          List.foldl_cons, List.foldl_nil]
      rw [meridian_point a R 0]
      rw [geom_step_first n R a _ _ (by omega) [] []]
      rw [ring_verts_eq a n R 0]
      simp [Nat.zero_mul]
    · obtain ⟨m, rfl⟩ : ∃ m, p = m + 1 := ⟨p - 1, by omega⟩
      rw [List.range_succ, List.map_append, List.foldl_append]
      rw [ih m rfl (by omega)]
      rw [List.map_singleton, List.foldl_cons, List.foldl_nil]
      rw [meridian_point a R (m + 1)]
      rw [geom_step_mid n R a _ _ (by omega) m (m + 1) ((m + 1) * n + 1)
          (by omega) (by omega) rfl rfl]
      rw [ring_verts_eq a n R (m + 1)]
      simp [List.range_succ, List.flatMap_append, List.append_assoc]

/-- Running `get_uv_sphere_geom` on valid arguments yields exactly the
closed-form vertex table and triangle list. -/
theorem get_uv_sphere_geom_ok (a : ℝ) (n R : ℕ) (ha : 0 < a) (hn : 3 ≤ n) (hR : 3 ≤ R) :
    get_uv_sphere_geom a n R = .ok ⟨sphereVerts a n R, sphereTris n R⟩ := by
  obtain ⟨L, rfl⟩ : ∃ L, R = L + 3 := ⟨R - 3, by omega⟩
  have hsam : yield_2d_circle_points_plus (L + 3 + 2) a 270 true (1 / 2) (0, a)
      = some ((List.range (L + 3 + 2)).map
          (plus_point (L + 3 + 2) a 270 true (1 / 2) (0, a))) := by
    unfold yield_2d_circle_points_plus
    rw [if_neg (by
      rintro ⟨-, hd⟩
      unfold plus_divisor at hd
      simp only [if_pos] at hd
      omega)]
  unfold get_uv_sphere_geom
  rw [if_neg (not_le.mpr ha), if_neg (by omega : ¬ n < 3), if_neg (by omega : ¬ L + 3 < 3)]
  dsimp only
  rw [hsam]
  dsimp only
  rw [show L + 3 + 2 - 1 - 1 = L + 3 from by omega]
  rw [(drop_take_map_range (plus_point (L + 3 + 2) a 270 true (1 / 2) (0, a)) (L + 3) :
        (((List.range (L + 3 + 2)).map
            (plus_point (L + 3 + 2) a 270 true (1 / 2) (0, a))).drop 1).take (L + 3) = _)]
  rw [enum_map_range]
  rw [(List.range_succ (L + 2) : List.range (L + 3) = List.range (L + 2) ++ [L + 2])]
  rw [List.map_append, List.foldl_append]
  rw [geom_loop_inv a n (L + 3) hn (by omega) (L + 2) (L + 1) rfl (by omega)]
  rw [List.map_singleton, List.foldl_cons, List.foldl_nil]
  rw [meridian_point a (L + 3) (L + 2)]
  rw [geom_step_last n (L + 3) a _ _ (by omega) (L + 1) (L + 2)
      (by omega) (by omega) rfl]
  rw [ring_verts_eq a n (L + 3) (L + 2)]
  dsimp only
  unfold sphereVerts sphereTris
  rw [(List.range_succ (L + 2) : List.range (L + 3) = List.range (L + 2) ++ [L + 2]),
      List.flatMap_append]
  rw [show (L + 3 - 1 : ℕ) = L + 2 from by omega]
  rw [(List.range_succ (L + 1) : List.range (L + 2) = List.range (L + 1) ++ [L + 1]),
      List.flatMap_append]
  rw [show a * 2 = 2 * a from by ring]
  simp [List.append_assoc]

/-! ## The egg builder produces the same data -/

theorem length_yield (n : ℕ) (ρ : ℝ) (c : ℝ × ℝ) :
    (yield_2d_circle_points n ρ c).length = n := by
  simp [yield_2d_circle_points]

theorem length_verts_head (a : ℝ) (n R k : ℕ) :
    ((((0 : ℝ), (0 : ℝ), (0 : ℝ)) : R3) ::
      (List.range k).flatMap fun r => (List.range n).map (ringPos a n R r)).length
      = k * n + 1 := by
  simp [List.length_flatMap, Function.comp_def, List.map_const', List.sum_replicate,
    smul_eq_mul, Nat.mul_comm]

theorem make_vertex_foldl (C : List R3) : ∀ (P : List R3) (acc : List ℕ),
    C.foldl (fun (ph : List R3 × List ℕ) p => (ph.1 ++ [p], ph.2 ++ [ph.1.length]))
        (P, acc)
      = (P ++ C, acc ++ List.range' P.length C.length) := by
  induction C with
  | nil => intro P acc; simp
  | cons c cs ih =>
    intro P acc
    rw [List.foldl_cons]
    dsimp only
    rw [ih (P ++ [c]) (acc ++ [P.length])]
    rw [List.length_cons, List.range'_succ]
    simp [List.append_assoc]

theorem egg_step_first (n R : ℕ) (a sx sz : ℝ) (hn : 0 < n)
    (t0 : List (ℕ × ℕ × ℕ)) :
    egg_ring_step n R a ⟨[], t0, [], []⟩ (0, (sx, sz))
      = ⟨[((0 : ℝ), (0 : ℝ), (0 : ℝ))] ++
           (yield_2d_circle_points n sx (0, 0)).map (fun q => (q.1, q.2, sz)),
         t0 ++ southTris n, List.range' 1 n, List.range' 1 n⟩ := by
  unfold egg_ring_step
  rw [if_pos rfl]
  dsimp only [make_new_vertex]
  rw [make_vertex_foldl]
  dsimp only
  simp only [List.nil_append, List.length_nil, List.length_singleton, List.length_map,
    length_yield]
  rw [deque_extend_full n [] _ (by simp)]
  rw [← ringIdx_zero 1 n]
  rw [fan_foldl n hn 0 1 0 t0 n]
  rw [south_raw n hn]
  rw [ringIdx_cycle 1 n 0, ringIdx_zero 1 n]
  rw [deque_extend_full n [] _ (by simp)]

theorem egg_step_mid (n R : ℕ) (a sx sz : ℝ) (hn : 0 < n) (p k bcur : ℕ)
    (hk0 : k ≠ 0) (hkl : k ≠ R - 1) (hp : p + 1 = k) (hbc : bcur = k * n + 1)
    (v0 : List R3) (hlen : v0.length = k * n + 1) (t0 : List (ℕ × ℕ × ℕ)) :
    egg_ring_step n R a
        ⟨v0, t0, List.range' (p * n + 1) n, List.range' (p * n + 1) n⟩
        (k, (sx, sz))
      = ⟨v0 ++ (yield_2d_circle_points n sx (0, 0)).map (fun q => (q.1, q.2, sz)),
         t0 ++ bridgeTris n p, List.range' bcur n, List.range' bcur n⟩ := by
  subst hp hbc
  unfold egg_ring_step
  rw [if_neg hk0]
  dsimp only [make_new_vertex]
  rw [make_vertex_foldl]
  dsimp only
  simp only [List.nil_append, hlen, List.length_map, length_yield]
  rw [deque_extend_full n _ _ (by simp)]
  rw [← ringIdx_zero (p * n + 1) n, ← ringIdx_zero ((p + 1) * n + 1) n]
  rw [bridge_foldl n hn (p * n + 1) ((p + 1) * n + 1) 0 t0 n]
  rw [bridge_raw n p (p * n + 1) ((p + 1) * n + 1) hn rfl rfl]
  rw [if_neg hkl]
  rw [ringIdx_cycle (p * n + 1) n 0, ringIdx_cycle ((p + 1) * n + 1) n 0,
      ringIdx_zero, ringIdx_zero]
  rw [deque_extend_full n _ _ (by simp)]

theorem egg_step_last (n R : ℕ) (a sx sz : ℝ) (hn : 0 < n) (p k : ℕ)
    (hk0 : k ≠ 0) (hkl : k = R - 1) (hp : p + 1 = k) (hR : 2 ≤ R)
    (v0 : List R3) (hlen : v0.length = k * n + 1) (t0 : List (ℕ × ℕ × ℕ)) :
    egg_ring_step n R a
        ⟨v0, t0, List.range' (p * n + 1) n, List.range' (p * n + 1) n⟩
        (k, (sx, sz))
      = ⟨v0 ++ (yield_2d_circle_points n sx (0, 0)).map (fun q => (q.1, q.2, sz)) ++
           [((0 : ℝ), (0 : ℝ), a * 2)],
         t0 ++ bridgeTris n p ++ northTris n R,
         List.range' (k * n + 1) n, List.range' (k * n + 1) n⟩ := by
  have hRp : R = p + 2 := by omega
  subst hp
  subst hRp
  unfold egg_ring_step
  rw [if_neg hk0]
  dsimp only [make_new_vertex]
  rw [make_vertex_foldl]
  dsimp only
  simp only [List.nil_append, hlen, List.length_map, List.length_append,
    length_yield]
  rw [deque_extend_full n _ _ (by simp)]
  rw [← ringIdx_zero (p * n + 1) n, ← ringIdx_zero ((p + 1) * n + 1) n]
  rw [bridge_foldl n hn (p * n + 1) ((p + 1) * n + 1) 0 t0 n]
  rw [bridge_raw n p (p * n + 1) ((p + 1) * n + 1) hn rfl rfl]
  rw [if_pos hkl]
  dsimp only
  rw [deque_extend_full n _ _ (by simp [length_ringIdx])]
  rw [ringIdx_cycle ((p + 1) * n + 1) n 0]
  rw [north_foldl n hn ((p + 1) * n + 1 + n) ((p + 1) * n + 1) 0 _ n]
  rw [north_raw n (p + 2) ((p + 1) * n + 1 + n) ((p + 1) * n + 1) hn
      (by ring) rfl]
  rw [ringIdx_cycle ((p + 1) * n + 1) n 0, ringIdx_zero]

/-- The egg-builder loop state after processing rings `0 .. k-1`, for
`k = p + 1 ≤ R - 1`. -/
theorem egg_loop_inv (a : ℝ) (n R : ℕ) (hn : 3 ≤ n) (hR : 3 ≤ R) :
    ∀ k p, p + 1 = k → k ≤ R - 1 →
    ((List.range k).map fun r =>
        (r, plus_point (R + 2) a 270 true (1 / 2) (0, a) (r + 1))).foldl
        (egg_ring_step n R a) ⟨[], [], [], []⟩
      = ⟨((0 : ℝ), (0 : ℝ), (0 : ℝ)) ::
           (List.range k).flatMap (fun r => (List.range n).map (ringPos a n R r)),
         southTris n ++ (List.range p).flatMap (bridgeTris n),
         List.range' (p * n + 1) n, List.range' (p * n + 1) n⟩ := by
  intro k
  induction k with
  | zero => intro p hp; omega
  | succ k ih =>
    intro p hp hk2
    have hpk : p = k := by omega
    subst hpk
    rcases Nat.eq_zero_or_pos p with rfl | hkpos
    · rw [List.range_succ, List.range_zero, List.nil_append, List.map_singleton,
          List.foldl_cons, List.foldl_nil]
      rw [meridian_point a R 0]
      rw [egg_step_first n R a _ _ (by omega) []]
      rw [ring_verts_eq a n R 0]
      simp [Nat.zero_mul]
    · obtain ⟨m, rfl⟩ : ∃ m, p = m + 1 := ⟨p - 1, by omega⟩
      rw [List.range_succ, List.map_append, List.foldl_append]
      rw [ih m rfl (by omega)]
      rw [List.map_singleton, List.foldl_cons, List.foldl_nil]
      rw [meridian_point a R (m + 1)]
      rw [egg_step_mid n R a _ _ (by omega) m (m + 1) ((m + 1) * n + 1)
          (by omega) (by omega) rfl rfl _ (length_verts_head a n R (m + 1)) _]
      rw [ring_verts_eq a n R (m + 1)]
      simp [List.range_succ, List.flatMap_append, List.append_assoc]

/-- Running `get_uv_sphere_egg_data` on valid arguments yields the same
vertex sequence and triangle triples as the flat-form generator. -/
theorem get_uv_sphere_egg_data_ok (a : ℝ) (n R : ℕ) (ha : 0 < a) (hn : 3 ≤ n)
    (hR : 3 ≤ R) :
    get_uv_sphere_egg_data a n R = .ok ⟨true, sphereVerts a n R, sphereTris n R⟩ := by
  obtain ⟨L, rfl⟩ : ∃ L, R = L + 3 := ⟨R - 3, by omega⟩
  have hsam : yield_2d_circle_points_plus (L + 3 + 2) a 270 true (1 / 2) (0, a)
      = some ((List.range (L + 3 + 2)).map
          (plus_point (L + 3 + 2) a 270 true (1 / 2) (0, a))) := by
    unfold yield_2d_circle_points_plus
    rw [if_neg (by
      rintro ⟨-, hd⟩
      unfold plus_divisor at hd
      simp only [if_pos] at hd
      omega)]
  unfold get_uv_sphere_egg_data
  rw [if_neg (not_le.mpr ha), if_neg (by omega : ¬ n < 3), if_neg (by omega : ¬ L + 3 < 3)]
  dsimp only
  rw [hsam]
  dsimp only
  rw [show L + 3 + 2 - 1 - 1 = L + 3 from by omega]
  rw [(drop_take_map_range (plus_point (L + 3 + 2) a 270 true (1 / 2) (0, a)) (L + 3) :
        (((List.range (L + 3 + 2)).map
            (plus_point (L + 3 + 2) a 270 true (1 / 2) (0, a))).drop 1).take (L + 3) = _)]
  rw [enum_map_range]
  rw [(List.range_succ (L + 2) : List.range (L + 3) = List.range (L + 2) ++ [L + 2])]
  rw [List.map_append, List.foldl_append]
  rw [egg_loop_inv a n (L + 3) hn (by omega) (L + 2) (L + 1) rfl (by omega)]
  rw [List.map_singleton, List.foldl_cons, List.foldl_nil]
  rw [meridian_point a (L + 3) (L + 2)]
  rw [egg_step_last n (L + 3) a _ _ (by omega) (L + 1) (L + 2)
      (by omega) (by omega) rfl (by omega) _ (length_verts_head a n (L + 3) (L + 2)) _]
  rw [ring_verts_eq a n (L + 3) (L + 2)]
  dsimp only
  unfold sphereVerts sphereTris
  rw [(List.range_succ (L + 2) : List.range (L + 3) = List.range (L + 2) ++ [L + 2]),
      List.flatMap_append]
  rw [show (L + 3 - 1 : ℕ) = L + 2 from by omega]
  rw [(List.range_succ (L + 1) : List.range (L + 2) = List.range (L + 1) ++ [L + 1]),
      List.flatMap_append]
  rw [show a * 2 = 2 * a from by ring]
  simp [List.append_assoc]

/-! ## Lengths and lookups in the closed forms -/

theorem length_bridgeTris (n p : ℕ) : (bridgeTris n p).length = 2 * n := by
  simp [bridgeTris, List.length_flatMap, Function.comp_def, List.map_const',
    List.sum_replicate, smul_eq_mul, Nat.mul_comm]

theorem length_sphereVerts (a : ℝ) (n R : ℕ) :
    (sphereVerts a n R).length = n * R + 2 := by
  simp [sphereVerts, List.length_flatMap, Function.comp_def, List.map_const',
    List.sum_replicate, smul_eq_mul]
  ring

theorem length_sphereTris (n R : ℕ) (hR : 3 ≤ R) :
    (sphereTris n R).length = 2 * (n * R) := by
  obtain ⟨L, rfl⟩ : ∃ L, R = L + 3 := ⟨R - 3, by omega⟩
  simp [sphereTris, southTris, northTris, List.length_flatMap, Function.comp_def,
    length_bridgeTris, List.map_const', List.sum_replicate, smul_eq_mul]
  ring

theorem length_flat_blocks {α : Type} (f : ℕ → ℕ → α) (n T : ℕ) :
    ((List.range T).flatMap fun r => (List.range n).map (f r)).length = T * n := by
  simp [List.length_flatMap, Function.comp_def, List.map_const', List.sum_replicate,
    smul_eq_mul, Nat.mul_comm]

theorem flatMap_blocks_get {α : Type} (f : ℕ → ℕ → α) (n : ℕ) :
    ∀ (T r s : ℕ), r < T → s < n →
    ((List.range T).flatMap fun r => (List.range n).map (f r))[r * n + s]? = some (f r s) := by
  intro T
  induction T with
  | zero => intro r s hr; omega
  | succ T ih =>
    intro r s hr hs
    rw [List.range_succ, List.flatMap_append]
    rcases Nat.lt_or_ge r T with h | h
    · rw [List.getElem?_append_left (by
        rw [length_flat_blocks]
        calc r * n + s < r * n + n := by omega
          _ = (r + 1) * n := by ring
          _ ≤ T * n := Nat.mul_le_mul_right n (by omega))]
      exact ih r s h hs
    · have hrT : r = T := by omega
      subst hrT
      rw [List.getElem?_append_right (by
        rw [length_flat_blocks]; exact Nat.le_add_right _ _)]
      rw [length_flat_blocks, Nat.add_sub_cancel_left]
      simp [hs]

theorem sphereVerts_get_zero (a : ℝ) (n R : ℕ) :
    (sphereVerts a n R)[0]? = some (((0 : ℝ), (0 : ℝ), (0 : ℝ)) : R3) := by
  unfold sphereVerts
  simp

theorem sphereVerts_get_ring (a : ℝ) (n R r s : ℕ) (hr : r < R) (hs : s < n) :
    (sphereVerts a n R)[1 + r * n + s]? = some (ringPos a n R r s) := by
  unfold sphereVerts
  rw [show 1 + r * n + s = (r * n + s) + 1 from by omega]
  rw [List.getElem?_cons_succ]
  rw [List.getElem?_append_left (by
    rw [length_flat_blocks]
    calc r * n + s < r * n + n := by omega
      _ = (r + 1) * n := by ring
      _ ≤ R * n := Nat.mul_le_mul_right n (by omega))]
  exact flatMap_blocks_get (ringPos a n R) n R r s hr hs

theorem sphereVerts_get_north (a : ℝ) (n R : ℕ) :
    (sphereVerts a n R)[1 + R * n]? = some (((0 : ℝ), (0 : ℝ), 2 * a) : R3) := by
  unfold sphereVerts
  rw [show 1 + R * n = (R * n) + 1 from by omega]
  rw [List.getElem?_cons_succ]
  rw [List.getElem?_append_right (by rw [length_flat_blocks])]
  rw [length_flat_blocks, Nat.sub_self]
  rfl

/-! ## Claims -/

/-- C1: for every valid input (`radius > 0`, `segments ≥ 3`, `rings ≥ 3`)
the flat-form generator produces exactly `segments*rings + 2` vertices and
exactly `2*segments*rings` triangles. -/
theorem claim_C1 (radius : ℝ) (segments rings : ℕ)
    (h1 : 0 < radius) (h2 : 3 ≤ segments) (h3 : 3 ≤ rings) :
    ∃ m : Mesh, get_uv_sphere_geom radius segments rings = .ok m ∧
      m.vertices.length = segments * rings + 2 ∧
      m.triangles.length = 2 * (segments * rings) := by
  refine ⟨_, get_uv_sphere_geom_ok radius segments rings h1 h2 h3, ?_, ?_⟩
  · rw [length_sphereVerts]
  · rw [length_sphereTris segments rings h3]

/-- C1 witness: `radius = 5`, `segments = 16`, `rings = 8` gives 130
vertices and 256 triangles. -/
theorem claim_C1_witness :
    (0 < (5 : ℝ) ∧ 3 ≤ 16 ∧ 3 ≤ 8) ∧
    ∃ m : Mesh, get_uv_sphere_geom 5 16 8 = .ok m ∧
      m.vertices.length = 130 ∧ m.triangles.length = 256 := by
  refine ⟨⟨by norm_num, by decide, by decide⟩, ?_⟩
  obtain ⟨m, hm, hv, ht⟩ := claim_C1 5 16 8 (by norm_num) (by decide) (by decide)
  exact ⟨m, hm, by rw [hv], by rw [ht]⟩

/-- C2: the flat-form generator assigns identities by the formula
`ring r, position s ↦ 1 + r*segments + s`, south pole `0`, north pole
`1 + rings*segments`, and emits exactly the traversal's triangle triples
(`sphereTris`: south fan, ring bridges, north fan, with the documented
window order). -/
theorem claim_C2 (radius : ℝ) (segments rings : ℕ)
    (h1 : 0 < radius) (h2 : 3 ≤ segments) (h3 : 3 ≤ rings) :
    ∃ m : Mesh, get_uv_sphere_geom radius segments rings = .ok m ∧
      m.vertices[0]? = some ((0 : ℝ), (0 : ℝ), (0 : ℝ)) ∧
      (∀ r < rings, ∀ s < segments,
        m.vertices[1 + r * segments + s]? = some (ringPos radius segments rings r s)) ∧
      m.vertices[1 + rings * segments]? = some ((0 : ℝ), (0 : ℝ), 2 * radius) ∧
      m.triangles = sphereTris segments rings := by
  refine ⟨_, get_uv_sphere_geom_ok radius segments rings h1 h2 h3,
    sphereVerts_get_zero radius segments rings, ?_,
    sphereVerts_get_north radius segments rings, rfl⟩
  intro r hr s hs
  exact sphereVerts_get_ring radius segments rings r s hr hs

/-- C2 witness at `radius = 1`, `segments = 3`, `rings = 3`. -/
theorem claim_C2_witness :
    ∃ m : Mesh, get_uv_sphere_geom 1 3 3 = .ok m ∧
      m.vertices[0]? = some ((0 : ℝ), (0 : ℝ), (0 : ℝ)) ∧
      (∀ r < 3, ∀ s < 3,
        m.vertices[1 + r * 3 + s]? = some (ringPos 1 3 3 r s)) ∧
      m.vertices[1 + 3 * 3]? = some ((0 : ℝ), (0 : ℝ), 2 * 1) ∧
      m.triangles = sphereTris 3 3 :=
  claim_C2 1 3 3 (by norm_num) (by decide) (by decide)

/-- C5: both generators fail (with the `ValueError` of their validation
block) exactly when `radius ≤ 0` or `segments < 3` or `rings < 3`; being
`Except` values, on error they return no mesh or egg structure at all. -/
theorem claim_C5 (radius : ℝ) (segments rings : ℕ) :
    ((∃ e, get_uv_sphere_geom radius segments rings = .error e) ↔
      (radius ≤ 0 ∨ segments < 3 ∨ rings < 3)) ∧
    ((∃ e, get_uv_sphere_egg_data radius segments rings = .error e) ↔
      (radius ≤ 0 ∨ segments < 3 ∨ rings < 3)) := by
  constructor
  · constructor
    · intro ⟨e, he⟩
      by_contra hc
      push_neg at hc
      obtain ⟨hr, hs, hg⟩ := hc
      rw [get_uv_sphere_geom_ok radius segments rings hr (by omega) (by omega)] at he
      exact Except.noConfusion he
    · intro h
      unfold get_uv_sphere_geom
      rcases em (radius ≤ 0) with h1 | h1
      · exact ⟨_, by rw [if_pos h1]⟩
      · rcases em (segments < 3) with h2 | h2
        · exact ⟨_, by rw [if_neg h1, if_pos h2]⟩
        · have h3 : rings < 3 := by tauto
          exact ⟨_, by rw [if_neg h1, if_neg h2, if_pos h3]⟩
  · constructor
    · intro ⟨e, he⟩
      by_contra hc
      push_neg at hc
      obtain ⟨hr, hs, hg⟩ := hc
      rw [get_uv_sphere_egg_data_ok radius segments rings hr (by omega) (by omega)] at he
      exact Except.noConfusion he
    · intro h
      unfold get_uv_sphere_egg_data
      rcases em (radius ≤ 0) with h1 | h1
      · exact ⟨_, by rw [if_pos h1]⟩
      · rcases em (segments < 3) with h2 | h2
        · exact ⟨_, by rw [if_neg h1, if_pos h2]⟩
        · have h3 : rings < 3 := by tauto
          exact ⟨_, by rw [if_neg h1, if_neg h2, if_pos h3]⟩

/-- C6: on every valid input the two assemblers emit the same data: under
the canonical numbering of egg-pool handles by creation order, the egg
vertex pool equals the flat vertex table (same positions in the same
order) and the egg face triples equal the flat index triples in the same
order. -/
theorem claim_C6 (radius : ℝ) (segments rings : ℕ)
    (h1 : 0 < radius) (h2 : 3 ≤ segments) (h3 : 3 ≤ rings) :
    ∃ (m : Mesh) (e : EggModel),
      get_uv_sphere_geom radius segments rings = .ok m ∧
      get_uv_sphere_egg_data radius segments rings = .ok e ∧
      e.pool = m.vertices ∧ e.polygons = m.triangles := by
  exact ⟨_, _, get_uv_sphere_geom_ok radius segments rings h1 h2 h3,
    get_uv_sphere_egg_data_ok radius segments rings h1 h2 h3, rfl, rfl⟩

/-- C6 witness at `radius = 1`, `segments = 3`, `rings = 3`. -/
theorem claim_C6_witness :
    ∃ (m : Mesh) (e : EggModel),
      get_uv_sphere_geom 1 3 3 = .ok m ∧
      get_uv_sphere_egg_data 1 3 3 = .ok e ∧
      e.pool = m.vertices ∧ e.polygons = m.triangles :=
  claim_C6 1 3 3 (by norm_num) (by decide) (by decide)

/-- C7: for every valid input, in both generators the south pole vertex is
exactly `(0,0,0)` and the north pole vertex is exactly `(0,0,2*radius)`. -/
theorem claim_C7 (radius : ℝ) (segments rings : ℕ)
    (h1 : 0 < radius) (h2 : 3 ≤ segments) (h3 : 3 ≤ rings) :
    (∃ m : Mesh, get_uv_sphere_geom radius segments rings = .ok m ∧
      m.vertices[0]? = some ((0 : ℝ), (0 : ℝ), (0 : ℝ)) ∧
      m.vertices[1 + rings * segments]? = some ((0 : ℝ), (0 : ℝ), 2 * radius)) ∧
    (∃ e : EggModel, get_uv_sphere_egg_data radius segments rings = .ok e ∧
      e.pool[0]? = some ((0 : ℝ), (0 : ℝ), (0 : ℝ)) ∧
      e.pool[1 + rings * segments]? = some ((0 : ℝ), (0 : ℝ), 2 * radius)) := by
  refine ⟨⟨_, get_uv_sphere_geom_ok radius segments rings h1 h2 h3, ?_, ?_⟩,
    ⟨_, get_uv_sphere_egg_data_ok radius segments rings h1 h2 h3, ?_, ?_⟩⟩
  · exact sphereVerts_get_zero radius segments rings
  · exact sphereVerts_get_north radius segments rings
  · exact sphereVerts_get_zero radius segments rings
  · exact sphereVerts_get_north radius segments rings

/-- C7 witness at `radius = 1`, `segments = 3`, `rings = 3`. -/
theorem claim_C7_witness :
    (∃ m : Mesh, get_uv_sphere_geom 1 3 3 = .ok m ∧
      m.vertices[0]? = some ((0 : ℝ), (0 : ℝ), (0 : ℝ)) ∧
      m.vertices[1 + 3 * 3]? = some ((0 : ℝ), (0 : ℝ), 2 * 1)) ∧
    (∃ e : EggModel, get_uv_sphere_egg_data 1 3 3 = .ok e ∧
      e.pool[0]? = some ((0 : ℝ), (0 : ℝ), (0 : ℝ)) ∧
      e.pool[1 + 3 * 3]? = some ((0 : ℝ), (0 : ℝ), 2 * 1)) :=
  claim_C7 1 3 3 (by norm_num) (by decide) (by decide)

/-- C10: calling `yield_2d_circle_points_plus` with `include_last = true`
and `quantity = 1` makes the divisor zero, so consuming the first sample
raises `ZeroDivisionError` (the generator yields no list); every internal
use by the sphere generators passes `quantity = rings + 2` with
`rings ≥ 3`, whose divisor `rings + 1` is nonzero, so that failing branch
is unreachable during mesh or egg generation. -/
theorem claim_C10 :
    (∀ (radius start_degrees circle_proportion : ℝ) (center : ℝ × ℝ),
      yield_2d_circle_points_plus 1 radius start_degrees true circle_proportion center
        = none) ∧
    (∀ rings : ℕ, 3 ≤ rings →
      plus_divisor (rings + 2) true ≠ 0 ∧
      ∀ (radius start_degrees circle_proportion : ℝ) (center : ℝ × ℝ),
        ∃ l, yield_2d_circle_points_plus (rings + 2) radius start_degrees true
          circle_proportion center = some l) := by
  constructor
  · intro radius sd p c
    unfold yield_2d_circle_points_plus
    rw [if_pos ⟨by norm_num, by unfold plus_divisor; simp⟩]
  · intro rings hr
    have hd : plus_divisor (rings + 2) true ≠ 0 := by
      unfold plus_divisor
      simp only [if_pos]
      omega
    refine ⟨hd, ?_⟩
    intro radius sd p c
    unfold yield_2d_circle_points_plus
    rw [if_neg (by rintro ⟨-, h⟩; exact hd h)]
    exact ⟨_, rfl⟩

/-- C10 witness: the failing call at `quantity = 1` and the succeeding
internal-shape call at `rings = 3`. -/
theorem claim_C10_witness :
    yield_2d_circle_points_plus 1 1 0 true 1 (0, 0) = none ∧
    ∃ l, yield_2d_circle_points_plus (3 + 2) 1 270 true (1 / 2) (0, 1) = some l :=
  ⟨claim_C10.1 1 0 1 (0, 0), (claim_C10.2 3 (by decide)).2 1 270 (1 / 2) (0, 1)⟩

/-! ## C9: the arc sampler's angle formula -/

/-- The angle the spec claims for sample `i` of the arc sampler, written
from the spec's words: `start_angle + (i/divisor) * proportion * 2π` with
`start_angle = ((startDegrees % 360)/360) * 2π`, divisor `quantity`
normally or `quantity - 1` when `includeLast`, the result "wrapped modulo
2π after adding the start offset" (a true modulo reduction). -/
noncomputable def spec_arc_angle (quantity : ℕ) (start_degrees : ℝ) (include_last : Bool)
    (circle_proportion : ℝ) (i : ℕ) : ℝ :=
  let start_angle : ℝ := (pymod start_degrees 360 / 360) * tau
  let divisor : ℤ := if include_last then (quantity : ℤ) - 1 else (quantity : ℤ)
  pymod (((i : ℝ) / (divisor : ℝ)) * (circle_proportion * tau) + start_angle) tau

theorem spec_raw_eq (quantity : ℕ) (start_degrees : ℝ) (include_last : Bool)
    (circle_proportion : ℝ) (i : ℕ) :
    spec_arc_angle quantity start_degrees include_last circle_proportion i
      = pymod (plus_raw_angle quantity start_degrees include_last circle_proportion i)
          tau := by
  unfold spec_arc_angle plus_raw_angle plus_divisor
  cases include_last <;> simp

theorem pymod_zero_left (b : ℝ) : pymod 0 b = 0 := by
  unfold pymod
  norm_num

/-- C9 counterexample: at `quantity = 2`, `start_degrees = 0`,
`include_last = false`, `circle_proportion = 5`, sample `i = 1`, the code's
angle is `3π` (one subtraction of `2π` from the raw `5π`) while the
claimed modulo-`2π` reduction gives `π`. -/
theorem claim_C9_counterexample :
    plus_angle 2 0 false 5 1 ≠ spec_arc_angle 2 0 false 5 1 := by
  have hraw : plus_raw_angle 2 0 false 5 1 = 5 * Real.pi := by
    unfold plus_raw_angle plus_divisor tau
    rw [pymod_zero_left]
    norm_num
    ring
  have hcode : plus_angle 2 0 false 5 1 = 3 * Real.pi := by
    unfold plus_angle
    rw [hraw]
    rw [if_pos (by unfold tau; nlinarith [Real.pi_pos])]
    unfold tau
    ring
  have hspec : spec_arc_angle 2 0 false 5 1 = Real.pi := by
    rw [spec_raw_eq, hraw]
    unfold pymod tau
    rw [show 5 * Real.pi / (2 * Real.pi) = (5 : ℝ) / 2 from by
      field_simp
      ring]
    rw [show ⌊(5 : ℝ) / 2⌋ = 2 from by norm_num]
    push_cast
    ring
  rw [hcode, hspec]
  intro h
  have := Real.pi_ne_zero
  apply this
  linarith

/-- C9 (amended): the divisor and start-angle formulas are as claimed, but
the code wraps by subtracting `2π` at most once (when the raw angle
exceeds `2π`), not by a full modulo reduction; the two agree exactly when
the unwrapped angle lies in `[0, 4π)` and is not exactly `2π`. -/
theorem claim_C9_amended (quantity : ℕ) (start_degrees : ℝ) (include_last : Bool)
    (circle_proportion : ℝ) (i : ℕ)
    (h0 : 0 ≤ plus_raw_angle quantity start_degrees include_last circle_proportion i)
    (h1 : plus_raw_angle quantity start_degrees include_last circle_proportion i < 2 * tau)
    (h2 : plus_raw_angle quantity start_degrees include_last circle_proportion i ≠ tau) :
    plus_angle quantity start_degrees include_last circle_proportion i
      = spec_arc_angle quantity start_degrees include_last circle_proportion i := by
  rw [spec_raw_eq]
  unfold plus_angle
  set x := plus_raw_angle quantity start_degrees include_last circle_proportion i with hx
  have htau : (0 : ℝ) < tau := by unfold tau; positivity
  unfold pymod
  rcases lt_or_le tau x with h | h
  · rw [if_pos h]
    have hfl : ⌊x / tau⌋ = 1 := by
      rw [Int.floor_eq_iff]
      constructor
      · push_cast
        rw [le_div_iff htau]
        linarith
      · push_cast
        rw [div_lt_iff htau]
        linarith
    rw [hfl]
    push_cast
    ring
  · rw [if_neg (not_lt.mpr h)]
    have hfl : ⌊x / tau⌋ = 0 := by
      rw [Int.floor_eq_iff]
      constructor
      · push_cast
        exact div_nonneg h0 (le_of_lt htau)
      · push_cast
        rw [div_lt_iff htau]
        have : x < tau := lt_of_le_of_ne h h2
        linarith
    rw [hfl]
    push_cast
    ring

/-- C9 witness: the meridian-style call `quantity = 4`, `start = 270°`,
`include_last`, proportion `1/2`, sample `i = 1` has raw angle `11π/6`,
inside the agreement region, and there the code angle equals the spec's
modulo formula. -/
theorem claim_C9_amended_witness :
    (0 ≤ plus_raw_angle 4 270 true (1 / 2) 1 ∧
     plus_raw_angle 4 270 true (1 / 2) 1 < 2 * tau ∧
     plus_raw_angle 4 270 true (1 / 2) 1 ≠ tau) ∧
    plus_angle 4 270 true (1 / 2) 1 = spec_arc_angle 4 270 true (1 / 2) 1 := by
  have hraw : plus_raw_angle 4 270 true (1 / 2) 1 = 11 * Real.pi / 6 := by
    have h : plus_raw_angle 4 270 true (1 / 2) 1
        = ((1 : ℕ) : ℝ) / (((2 : ℕ) : ℝ) + 1) * Real.pi + (Real.pi + Real.pi / 2) :=
      plus_raw_angle_meridian 2 1
    rw [h]
    push_cast
    ring
  have h0 : 0 ≤ plus_raw_angle 4 270 true (1 / 2) 1 := by
    rw [hraw]; positivity
  have h1 : plus_raw_angle 4 270 true (1 / 2) 1 < 2 * tau := by
    rw [hraw]; unfold tau; nlinarith [Real.pi_pos]
  have h2 : plus_raw_angle 4 270 true (1 / 2) 1 ≠ tau := by
    rw [hraw]; unfold tau
    intro h
    have := Real.pi_ne_zero
    apply this
    linarith
  exact ⟨⟨h0, h1, h2⟩, claim_C9_amended 4 270 true (1 / 2) 1 h0 h1 h2⟩

/-! ## C8: ring vertices lie on the sphere -/

/-- C8: for every valid input and every non-pole vertex `p`, writing `d`
for its planar distance from the axis and `h` for its height,
`d² + (h - radius)² = radius²` holds exactly over the reals. -/
theorem claim_C8 (radius : ℝ) (segments rings : ℕ)
    (h1 : 0 < radius) (h2 : 3 ≤ segments) (h3 : 3 ≤ rings) :
    ∃ m : Mesh, get_uv_sphere_geom radius segments rings = .ok m ∧
      ∀ (i : ℕ) (p : R3), m.vertices[i]? = some p →
        i ≠ 0 → i ≠ 1 + rings * segments →
        p.1 ^ 2 + p.2.1 ^ 2 + (p.2.2 - radius) ^ 2 = radius ^ 2 := by
  refine ⟨_, get_uv_sphere_geom_ok radius segments rings h1 h2 h3, ?_⟩
  dsimp only
  intro i p hp hi0 hiN
  have hn : 0 < segments := by omega
  have hlen : i < (sphereVerts radius segments rings).length := by
    by_contra hcon
    rw [List.getElem?_eq_none (by omega)] at hp
    exact Option.noConfusion hp
  rw [length_sphereVerts] at hlen
  have hdm := Nat.div_add_mod (i - 1) segments
  have hij : i = 1 + ((i - 1) / segments) * segments + (i - 1) % segments := by
    rw [Nat.mul_comm]
    omega
  have hs : (i - 1) % segments < segments := Nat.mod_lt _ hn
  have hr : (i - 1) / segments < rings := by
    rw [Nat.div_lt_iff_lt_mul hn]
    have hc : segments * rings = rings * segments := Nat.mul_comm _ _
    omega
  rw [hij, sphereVerts_get_ring radius segments rings _ _ hr hs] at hp
  have hpe := Option.some.inj hp
  subst hpe
  unfold ringPos
  dsimp only
  linear_combination
    (radius ^ 2 * Real.sin (phi rings ((i - 1) / segments)) ^ 2) *
      Real.sin_sq_add_cos_sq (theta segments ((i - 1) % segments)) +
    radius ^ 2 * Real.sin_sq_add_cos_sq (phi rings ((i - 1) / segments))

/-- C8 witness at `radius = 1`, `segments = 3`, `rings = 3`. -/
theorem claim_C8_witness :
    ∃ m : Mesh, get_uv_sphere_geom 1 3 3 = .ok m ∧
      ∀ (i : ℕ) (p : R3), m.vertices[i]? = some p →
        i ≠ 0 → i ≠ 1 + 3 * 3 →
        p.1 ^ 2 + p.2.1 ^ 2 + (p.2.2 - 1) ^ 2 = 1 ^ 2 :=
  claim_C8 1 3 3 (by norm_num) (by decide) (by decide)

/-! ## C3: outward-facing winding -/

theorem theta_m1_shift (n k : ℕ) (hn : 0 < n) :
    theta n (m1 n k)
      = (theta n k - 2 * Real.pi / n) + ((1 - ((k + n - 1) / n : ℕ) : ℤ) : ℝ) * (2 * Real.pi) := by
  have h1n : 1 ≤ k + n := by omega
  unfold theta m1
  set q := (k + n - 1) / n with hqdef
  set m := (k + n - 1) % n with hmdef
  have hq : n * q + m = k + n - 1 := Nat.div_add_mod _ n
  have hcast : (n : ℝ) * (q : ℝ) + (m : ℝ) = (k : ℝ) + (n : ℝ) - 1 := by
    have h0 : ((n * q + m : ℕ) : ℝ) = ((k + n - 1 : ℕ) : ℝ) := by rw [hq]
    push_cast [Nat.cast_sub h1n] at h0
    linarith
  have hn' : (n : ℝ) ≠ 0 := by positivity
  have hm2 : (m : ℝ) = (k : ℝ) + n - 1 - n * q := by linarith
  rw [hm2]
  push_cast
  field_simp
  ring

theorem cos_theta_m1 (n k : ℕ) (hn : 0 < n) :
    Real.cos (theta n (m1 n k)) = Real.cos (theta n k - 2 * Real.pi / n) := by
  rw [theta_m1_shift n k hn, Real.cos_add_int_mul_two_pi]

theorem sin_theta_m1 (n k : ℕ) (hn : 0 < n) :
    Real.sin (theta n (m1 n k)) = Real.sin (theta n k - 2 * Real.pi / n) := by
  rw [theta_m1_shift n k hn, Real.sin_add_int_mul_two_pi]

theorem ringPos_m1 (a : ℝ) (n R r k : ℕ) (hn : 0 < n) :
    ringPos a n R r (m1 n k)
      = (a * Real.sin (phi R r) * Real.cos (theta n k - 2 * Real.pi / n),
         a * Real.sin (phi R r) * Real.sin (theta n k - 2 * Real.pi / n),
         a * (1 - Real.cos (phi R r))) := by
  unfold ringPos
  rw [cos_theta_m1 n k hn, sin_theta_m1 n k hn]

theorem south_fan_dot (a ρ z θ δ : ℝ) :
    dot3 (cross3 (vsub (ρ * Real.cos θ, ρ * Real.sin θ, z) (0, 0, 0))
                 (vsub (ρ * Real.cos (θ - δ), ρ * Real.sin (θ - δ), z) (0, 0, 0)))
         (vsub (centroid3 (0, 0, 0) (ρ * Real.cos θ, ρ * Real.sin θ, z)
                 (ρ * Real.cos (θ - δ), ρ * Real.sin (θ - δ), z)) (0, 0, a))
      = ρ ^ 2 * a * Real.sin δ := by
  simp only [vsub, cross3, dot3, centroid3, Real.cos_sub, Real.sin_sub]
  linear_combination (ρ ^ 2 * a * Real.sin δ) * Real.sin_sq_add_cos_sq θ

theorem north_fan_dot (a ρ z θ δ : ℝ) :
    dot3 (cross3 (vsub (ρ * Real.cos (θ - δ), ρ * Real.sin (θ - δ), z) (0, 0, 2 * a))
                 (vsub (ρ * Real.cos θ, ρ * Real.sin θ, z) (0, 0, 2 * a)))
         (vsub (centroid3 (0, 0, 2 * a) (ρ * Real.cos (θ - δ), ρ * Real.sin (θ - δ), z)
                 (ρ * Real.cos θ, ρ * Real.sin θ, z)) (0, 0, a))
      = ρ ^ 2 * a * Real.sin δ := by
  simp only [vsub, cross3, dot3, centroid3, Real.cos_sub, Real.sin_sub]
  linear_combination (ρ ^ 2 * a * Real.sin δ) * Real.sin_sq_add_cos_sq θ

theorem bridge_a_dot (a φ₁ φ₂ θ δ : ℝ) :
    dot3 (cross3
        (vsub (a * Real.sin φ₂ * Real.cos θ, a * Real.sin φ₂ * Real.sin θ,
               a * (1 - Real.cos φ₂))
              (a * Real.sin φ₁ * Real.cos (θ - δ), a * Real.sin φ₁ * Real.sin (θ - δ),
               a * (1 - Real.cos φ₁)))
        (vsub (a * Real.sin φ₂ * Real.cos (θ - δ), a * Real.sin φ₂ * Real.sin (θ - δ),
               a * (1 - Real.cos φ₂))
              (a * Real.sin φ₁ * Real.cos (θ - δ), a * Real.sin φ₁ * Real.sin (θ - δ),
               a * (1 - Real.cos φ₁))))
      (vsub (centroid3
              (a * Real.sin φ₁ * Real.cos (θ - δ), a * Real.sin φ₁ * Real.sin (θ - δ),
               a * (1 - Real.cos φ₁))
              (a * Real.sin φ₂ * Real.cos θ, a * Real.sin φ₂ * Real.sin θ,
               a * (1 - Real.cos φ₂))
              (a * Real.sin φ₂ * Real.cos (θ - δ), a * Real.sin φ₂ * Real.sin (θ - δ),
               a * (1 - Real.cos φ₂))) (0, 0, a))
      = a ^ 3 * Real.sin φ₂ * Real.sin δ *
          (Real.sin φ₂ * Real.cos φ₁ - Real.cos φ₂ * Real.sin φ₁) := by
  simp only [vsub, cross3, dot3, centroid3, Real.cos_sub, Real.sin_sub]
  linear_combination (a ^ 3 * Real.sin φ₂ * Real.sin δ *
    (Real.sin φ₂ * Real.cos φ₁ - Real.cos φ₂ * Real.sin φ₁)) * Real.sin_sq_add_cos_sq θ

theorem bridge_b_dot (a φ₁ φ₂ θ δ : ℝ) :
    dot3 (cross3
        (vsub (a * Real.sin φ₁ * Real.cos (θ - δ), a * Real.sin φ₁ * Real.sin (θ - δ),
               a * (1 - Real.cos φ₁))
              (a * Real.sin φ₂ * Real.cos θ, a * Real.sin φ₂ * Real.sin θ,
               a * (1 - Real.cos φ₂)))
        (vsub (a * Real.sin φ₁ * Real.cos θ, a * Real.sin φ₁ * Real.sin θ,
               a * (1 - Real.cos φ₁))
              (a * Real.sin φ₂ * Real.cos θ, a * Real.sin φ₂ * Real.sin θ,
               a * (1 - Real.cos φ₂))))
      (vsub (centroid3
              (a * Real.sin φ₂ * Real.cos θ, a * Real.sin φ₂ * Real.sin θ,
               a * (1 - Real.cos φ₂))
              (a * Real.sin φ₁ * Real.cos (θ - δ), a * Real.sin φ₁ * Real.sin (θ - δ),
               a * (1 - Real.cos φ₁))
              (a * Real.sin φ₁ * Real.cos θ, a * Real.sin φ₁ * Real.sin θ,
               a * (1 - Real.cos φ₁))) (0, 0, a))
      = a ^ 3 * Real.sin φ₁ * Real.sin δ *
          (Real.sin φ₂ * Real.cos φ₁ - Real.cos φ₂ * Real.sin φ₁) := by
  simp only [vsub, cross3, dot3, centroid3, Real.cos_sub, Real.sin_sub]
  linear_combination (a ^ 3 * Real.sin φ₁ * Real.sin δ *
    (Real.sin φ₂ * Real.cos φ₁ - Real.cos φ₂ * Real.sin φ₁)) * Real.sin_sq_add_cos_sq θ

theorem phi_pos (R r : ℕ) : 0 < phi R r := by
  unfold phi
  have := Real.pi_pos
  positivity

theorem phi_lt_pi (R r : ℕ) (hr : r < R) : phi R r < Real.pi := by
  unfold phi
  have hp := Real.pi_pos
  have h1 : ((r : ℝ) + 1) / ((R : ℝ) + 1) < 1 := by
    rw [div_lt_one (by positivity)]
    have : (r : ℝ) < R := by exact_mod_cast hr
    linarith
  nlinarith

theorem sin_phi_pos (R r : ℕ) (hr : r < R) : 0 < Real.sin (phi R r) :=
  Real.sin_pos_of_pos_of_lt_pi (phi_pos R r) (phi_lt_pi R r hr)

theorem sin_delta_pos (n : ℕ) (hn : 3 ≤ n) : 0 < Real.sin (2 * Real.pi / n) := by
  have hp := Real.pi_pos
  apply Real.sin_pos_of_pos_of_lt_pi
  · positivity
  · rw [div_lt_iff (by positivity)]
    have h3 : (3 : ℝ) ≤ n := by exact_mod_cast hn
    nlinarith

theorem sin_phi_diff_pos (R p : ℕ) (hR : 0 < R) :
    0 < Real.sin (phi R (p + 1)) * Real.cos (phi R p)
        - Real.cos (phi R (p + 1)) * Real.sin (phi R p) := by
  rw [← Real.sin_sub]
  have hd : phi R (p + 1) - phi R p = Real.pi / ((R : ℝ) + 1) := by
    unfold phi
    push_cast
    field_simp
    ring
  rw [hd]
  apply Real.sin_pos_of_pos_of_lt_pi
  · have := Real.pi_pos
    positivity
  · apply div_lt_self Real.pi_pos
    have : (1 : ℝ) ≤ R := by exact_mod_cast hR
    linarith

theorem sphereVerts_getD_zero (a : ℝ) (n R : ℕ) (d : R3) :
    (sphereVerts a n R).getD 0 d = ((0 : ℝ), (0 : ℝ), (0 : ℝ)) := by
  rw [List.getD_eq_getElem?_getD, sphereVerts_get_zero]
  rfl

theorem sphereVerts_getD_ring (a : ℝ) (n R r s : ℕ) (hr : r < R) (hs : s < n) (d : R3) :
    (sphereVerts a n R).getD (1 + r * n + s) d = ringPos a n R r s := by
  rw [List.getD_eq_getElem?_getD, sphereVerts_get_ring a n R r s hr hs]
  rfl

theorem sphereVerts_getD_north (a : ℝ) (n R : ℕ) (d : R3) :
    (sphereVerts a n R).getD (1 + R * n) d = ((0 : ℝ), (0 : ℝ), 2 * a) := by
  rw [List.getD_eq_getElem?_getD, sphereVerts_get_north]
  rfl

theorem m1_lt (n k : ℕ) (hn : 0 < n) : m1 n k < n := Nat.mod_lt _ hn

/-- C3: for every valid input, every emitted triangle, in its emitted
vertex order, has `((v1-v0)×(v2-v0)) · (centroid - (0,0,radius)) > 0`:
the winding faces outward from the sphere center for 100% of the
triangles, pole fans and both interior-ring orders included, for all
valid resolutions. -/
theorem claim_C3 (radius : ℝ) (segments rings : ℕ)
    (h1 : 0 < radius) (h2 : 3 ≤ segments) (h3 : 3 ≤ rings) :
    ∃ m : Mesh, get_uv_sphere_geom radius segments rings = .ok m ∧
      ∀ t ∈ m.triangles,
        0 < dot3 (cross3
              (vsub (m.vertices.getD t.2.1 (0, 0, 0)) (m.vertices.getD t.1 (0, 0, 0)))
              (vsub (m.vertices.getD t.2.2 (0, 0, 0)) (m.vertices.getD t.1 (0, 0, 0))))
            (vsub (centroid3 (m.vertices.getD t.1 (0, 0, 0))
                (m.vertices.getD t.2.1 (0, 0, 0)) (m.vertices.getD t.2.2 (0, 0, 0)))
              (0, 0, radius)) := by
  have hn : 0 < segments := by omega
  refine ⟨_, get_uv_sphere_geom_ok radius segments rings h1 h2 h3, ?_⟩
  dsimp only
  intro t ht
  unfold sphereTris at ht
  rcases List.mem_append.mp ht with hSB | hN
  · rcases List.mem_append.mp hSB with hS | hB
    · -- south fan
      obtain ⟨k, hk, rfl⟩ := List.mem_map.mp hS
      rw [List.mem_range] at hk
      dsimp only
      rw [show vtx segments 0 k = 1 + 0 * segments + k from rfl]
      rw [show vtx segments 0 (m1 segments k) = 1 + 0 * segments + m1 segments k from rfl]
      rw [sphereVerts_getD_zero,
          sphereVerts_getD_ring radius segments rings 0 k (by omega) hk,
          sphereVerts_getD_ring radius segments rings 0 (m1 segments k) (by omega)
            (m1_lt segments k hn)]
      rw [ringPos_m1 radius segments rings 0 k hn]
      unfold ringPos
      rw [south_fan_dot radius (radius * Real.sin (phi rings 0))
          (radius * (1 - Real.cos (phi rings 0))) (theta segments k)
          (2 * Real.pi / segments)]
      have hsp := sin_phi_pos rings 0 (by omega)
      have hsd := sin_delta_pos segments h2
      have hρ : 0 < radius * Real.sin (phi rings 0) := mul_pos h1 hsp
      positivity
    · -- bridge
      obtain ⟨p, hp, hmem⟩ := List.mem_flatMap.mp hB
      rw [List.mem_range] at hp
      unfold bridgeTris at hmem
      obtain ⟨k, hk, ht2⟩ := List.mem_flatMap.mp hmem
      rw [List.mem_range] at hk
      have hpR : p + 1 < rings := by omega
      rcases List.mem_pair.mp ht2 with rfl | rfl
      · -- triangle A
        dsimp only
        rw [show vtx segments p (m1 segments k)
              = 1 + p * segments + m1 segments k from rfl]
        rw [show vtx segments (p + 1) k = 1 + (p + 1) * segments + k from rfl]
        rw [show vtx segments (p + 1) (m1 segments k)
              = 1 + (p + 1) * segments + m1 segments k from rfl]
        rw [sphereVerts_getD_ring radius segments rings p (m1 segments k) (by omega)
              (m1_lt segments k hn),
            sphereVerts_getD_ring radius segments rings (p + 1) k hpR hk,
            sphereVerts_getD_ring radius segments rings (p + 1) (m1 segments k) hpR
              (m1_lt segments k hn)]
        rw [ringPos_m1 radius segments rings p k hn,
            ringPos_m1 radius segments rings (p + 1) k hn]
        unfold ringPos
        rw [bridge_a_dot radius (phi rings p) (phi rings (p + 1)) (theta segments k)
            (2 * Real.pi / segments)]
        have hsp := sin_phi_pos rings (p + 1) hpR
        have hsd := sin_delta_pos segments h2
        have hdd := sin_phi_diff_pos rings p (by omega)
        positivity
      · -- triangle B
        dsimp only
        rw [show vtx segments (p + 1) k = 1 + (p + 1) * segments + k from rfl]
        rw [show vtx segments p (m1 segments k)
              = 1 + p * segments + m1 segments k from rfl]
        rw [show vtx segments p k = 1 + p * segments + k from rfl]
        rw [sphereVerts_getD_ring radius segments rings (p + 1) k hpR hk,
            sphereVerts_getD_ring radius segments rings p (m1 segments k) (by omega)
              (m1_lt segments k hn),
            sphereVerts_getD_ring radius segments rings p k (by omega) hk]
        rw [ringPos_m1 radius segments rings p k hn]
        unfold ringPos
        rw [bridge_b_dot radius (phi rings p) (phi rings (p + 1)) (theta segments k)
            (2 * Real.pi / segments)]
        have hsp := sin_phi_pos rings p (by omega)
        have hsd := sin_delta_pos segments h2
        have hdd := sin_phi_diff_pos rings p (by omega)
        positivity
  · -- north fan
    obtain ⟨k, hk, rfl⟩ := List.mem_map.mp hN
    rw [List.mem_range] at hk
    dsimp only
    have hRpos : 0 < rings := by omega
    rw [show vtx segments rings 0 = 1 + rings * segments + 0 from rfl]
    rw [show vtx segments (rings - 1) (m1 segments k)
          = 1 + (rings - 1) * segments + m1 segments k from rfl]
    rw [show vtx segments (rings - 1) k = 1 + (rings - 1) * segments + k from rfl]
    rw [show 1 + rings * segments + 0 = 1 + rings * segments from rfl]
    rw [sphereVerts_getD_north,
        sphereVerts_getD_ring radius segments rings (rings - 1) (m1 segments k)
          (by omega) (m1_lt segments k hn),
        sphereVerts_getD_ring radius segments rings (rings - 1) k (by omega) hk]
    rw [ringPos_m1 radius segments rings (rings - 1) k hn]
    unfold ringPos
    rw [north_fan_dot radius (radius * Real.sin (phi rings (rings - 1)))
        (radius * (1 - Real.cos (phi rings (rings - 1)))) (theta segments k)
        (2 * Real.pi / segments)]
    have hsp := sin_phi_pos rings (rings - 1) (by omega)
    have hsd := sin_delta_pos segments h2
    have hρ : 0 < radius * Real.sin (phi rings (rings - 1)) := mul_pos h1 hsp
    positivity

/-- C3 witness at `radius = 1`, `segments = 3`, `rings = 3`. -/
theorem claim_C3_witness :
    ∃ m : Mesh, get_uv_sphere_geom 1 3 3 = .ok m ∧
      ∀ t ∈ m.triangles,
        0 < dot3 (cross3
              (vsub (m.vertices.getD t.2.1 (0, 0, 0)) (m.vertices.getD t.1 (0, 0, 0)))
              (vsub (m.vertices.getD t.2.2 (0, 0, 0)) (m.vertices.getD t.1 (0, 0, 0))))
            (vsub (centroid3 (m.vertices.getD t.1 (0, 0, 0))
                (m.vertices.getD t.2.1 (0, 0, 0)) (m.vertices.getD t.2.2 (0, 0, 0)))
              (0, 0, 1)) :=
  claim_C3 1 3 3 (by norm_num) (by decide) (by decide)


/- ### C4: every undirected edge borders exactly two triangles -/

theorem fm_single {α β : Type} (f : α → β) (l : List α) :
    (l.flatMap fun x => [f x]) = l.map f := by
  induction l with
  | nil => rfl
  | cons a t ih => simp [List.flatMap_cons, ih]

theorem flatMap3_perm {α β : Type} (f g h : α → β) (l : List α) :
    (l.flatMap fun a => [f a, g a, h a]).Perm (l.map f ++ l.map g ++ l.map h) := by
  have e1 : (fun a => [f a, g a, h a]) = fun a => [f a] ++ ([g a] ++ [h a]) := rfl
  rw [e1]
  refine ((List.flatMap_append_perm l _ _).symm).trans ?_
  rw [fm_single, List.append_assoc]
  exact List.Perm.append_left _ (((List.flatMap_append_perm l _ _).symm).trans
    (by rw [fm_single, fm_single]))

theorem flatMap_perm_congr {α β : Type} {l : List α} {f g : α → List β}
    (h : ∀ a ∈ l, (f a).Perm (g a)) : (l.flatMap f).Perm (l.flatMap g) := by
  induction l with
  | nil => exact List.Perm.refl _
  | cons a t ih =>
    simp only [List.flatMap_cons]
    exact (h a (List.mem_cons_self a t)).append
      (ih fun x hx => h x (List.mem_cons_of_mem a hx))

theorem south_edges_perm (n : ℕ) :
    (dirEdgeList (southTris n)).Perm
      ((List.range n).map (famS1 n) ++ (List.range n).map (famS2 n) ++
        (List.range n).map (famS3 n)) := by
  unfold dirEdgeList southTris
  rw [List.flatMap_map]
  exact flatMap3_perm (famS1 n) (famS2 n) (famS3 n) (List.range n)

theorem bridge_edges_perm (n p : ℕ) :
    (dirEdgeList (bridgeTris n p)).Perm (famBridge n p) := by
  unfold dirEdgeList bridgeTris famBridge
  rw [List.flatMap_assoc]
  have e1 : (fun k => ([(vtx n p (m1 n k), vtx n (p + 1) k, vtx n (p + 1) (m1 n k)),
      (vtx n (p + 1) k, vtx n p (m1 n k), vtx n p k)] : List (ℕ × ℕ × ℕ)).flatMap dirEdges)
      = fun k => [famA1 n p k, famA2 n p k, famA3 n p k] ++
          [famB1 n p k, famB2 n p k, famB3 n p k] := rfl
  rw [e1]
  refine ((List.flatMap_append_perm (List.range n) _ _).symm).trans ?_
  exact (flatMap3_perm _ _ _ _).append (flatMap3_perm _ _ _ _)

theorem north_edges_perm (n R : ℕ) :
    (dirEdgeList (northTris n R)).Perm
      ((List.range n).map (famN1 n R) ++ (List.range n).map (famN2 n R) ++
        (List.range n).map (famN3 n R)) := by
  unfold dirEdgeList northTris
  rw [List.flatMap_map]
  exact flatMap3_perm (famN1 n R) (famN2 n R) (famN3 n R) (List.range n)

theorem reorg_perm (n R : ℕ) :
    (dirEdgeList (sphereTris n R)).Perm (reorgEdges n R) := by
  unfold sphereTris reorgEdges dirEdgeList
  rw [List.flatMap_append, List.flatMap_append]
  refine List.Perm.append (List.Perm.append (south_edges_perm n) ?_) (north_edges_perm n R)
  rw [show ((List.range (R - 1)).flatMap (bridgeTris n)).flatMap dirEdges
      = (List.range (R - 1)).flatMap fun p => dirEdgeList (bridgeTris n p) from
    List.flatMap_assoc ..]
  exact flatMap_perm_congr fun p _ => bridge_edges_perm n p

theorem m1_eq (n k : ℕ) (hn : 1 ≤ n) (hk : k < n) :
    m1 n k = if k = 0 then n - 1 else k - 1 := by
  unfold m1
  rcases Nat.eq_zero_or_pos k with rfl | hk0
  · simp
  · have h1 : k + n - 1 = (k - 1) + n := by omega
    have h2 : k ≠ 0 := by omega
    rw [h1, Nat.add_mod_right, Nat.mod_eq_of_lt (by omega)]
    simp [h2]

theorem m1_ne (n k : ℕ) (hn : 2 ≤ n) (hk : k < n) : m1 n k ≠ k := by
  rw [m1_eq n k (by omega) hk]
  rcases Nat.eq_zero_or_pos k with rfl | hk0
  · simp
    omega
  · have h2 : k ≠ 0 := by omega
    simp [h2]
    omega

theorem m1_m1_ne (n k : ℕ) (hn : 3 ≤ n) (hk : k < n) : m1 n (m1 n k) ≠ k := by
  rw [m1_eq n k (by omega) hk]
  by_cases h0 : k = 0
  · subst h0
    simp
    rw [m1_eq n (n - 1) (by omega) (by omega)]
    have h1 : n - 1 ≠ 0 := by omega
    simp [h1]
    omega
  · simp [h0]
    rw [m1_eq n (k - 1) (by omega) (by omega)]
    by_cases h1 : k - 1 = 0 <;> simp [h1] <;> omega

theorem m1_succ_mod (n k : ℕ) (hn : 1 ≤ n) (hk : k < n) : m1 n ((k + 1) % n) = k := by
  rcases Nat.lt_or_ge (k + 1) n with h | h
  · rw [Nat.mod_eq_of_lt h, m1_eq n (k + 1) hn (by omega)]
    simp
  · have hkn : k + 1 = n := by omega
    rw [hkn, Nat.mod_self, m1_eq n 0 hn hn]
    simp
    omega

theorem m1_inv_mod (n k : ℕ) (hn : 1 ≤ n) (hk : k < n) : (m1 n k + 1) % n = k := by
  rw [m1_eq n k hn hk]
  rcases Nat.eq_zero_or_pos k with rfl | hk0
  · simp
    rw [Nat.sub_add_cancel hn, Nat.mod_self]
  · have h2 : k ≠ 0 := by omega
    simp [h2]
    rw [Nat.sub_add_cancel hk0, Nat.mod_eq_of_lt hk]

theorem vtx_decode_div (n r s : ℕ) (hn : 0 < n) (hs : s < n) : (vtx n r s - 1) / n = r := by
  unfold vtx
  have h1 : 1 + r * n + s - 1 = s + n * r := by ring_nf; omega
  rw [h1, Nat.add_mul_div_left s r hn, Nat.div_eq_of_lt hs]
  omega

theorem vtx_decode_mod (n r s : ℕ) (hs : s < n) : (vtx n r s - 1) % n = s := by
  unfold vtx
  have h1 : 1 + r * n + s - 1 = s + n * r := by ring_nf; omega
  rw [h1, Nat.add_mul_mod_self_left s n r, Nat.mod_eq_of_lt hs]

theorem vtx_lt_north (n R r s : ℕ) (hr : r + 1 ≤ R) (hs : s < n) :
    vtx n r s < 1 + R * n := by
  unfold vtx
  have h1 : (r + 1) * n ≤ R * n := Nat.mul_le_mul_right n hr
  rw [Nat.succ_mul] at h1
  omega

theorem code_S1 (n R k : ℕ) (hk : k < n) :
    edgeCode n R (famS1 n k) = 0 + k := by
  simp only [famS1, edgeCode, if_true]
  unfold vtx
  omega

theorem code_S2 (n R k : ℕ) (hn : 3 ≤ n) (hR : 3 ≤ R) (hk : k < n) :
    edgeCode n R (famS2 n k) = n + k := by
  have hm := m1_lt n k (by omega)
  simp only [famS2, edgeCode]
  rw [vtx_decode_div n 0 k (by omega) hk, vtx_decode_div n 0 (m1 n k) (by omega) hm,
      vtx_decode_mod n 0 k hk, vtx_decode_mod n 0 (m1 n k) hm]
  rw [if_neg (show ¬(vtx n 0 k = 0) by unfold vtx; omega),
      if_neg (show ¬(vtx n 0 (m1 n k) = 0) by unfold vtx; omega),
      if_neg (Nat.ne_of_lt (vtx_lt_north n R 0 k (by omega) hk)),
      if_neg (Nat.ne_of_lt (vtx_lt_north n R 0 (m1 n k) (by omega) hm)),
      if_pos rfl, if_pos rfl, if_pos rfl]

theorem code_S3 (n R k : ℕ) (hn : 3 ≤ n) (hk : k < n) :
    edgeCode n R (famS3 n k) = 2 * n + k := by
  have hm := m1_lt n k (by omega)
  simp only [famS3, edgeCode]
  rw [show vtx n 0 (m1 n k) = m1 n k + 1 from by unfold vtx; omega]
  rw [if_neg (show ¬(m1 n k + 1 = 0) by omega)]
  simp only [if_true]
  rw [m1_inv_mod n k (by omega) hk]

theorem code_A1 (n R p k : ℕ) (hn : 3 ≤ n) (hR : 3 ≤ R) (hp : p < R - 1) (hk : k < n) :
    edgeCode n R (famA1 n p k) = (3 + 6 * p) * n + k := by
  have hm := m1_lt n k (by omega)
  simp only [famA1, edgeCode]
  rw [vtx_decode_div n p (m1 n k) (by omega) hm, vtx_decode_div n (p + 1) k (by omega) hk,
      vtx_decode_mod n p (m1 n k) hm, vtx_decode_mod n (p + 1) k hk]
  rw [if_neg (show ¬(vtx n p (m1 n k) = 0) by unfold vtx; omega),
      if_neg (show ¬(vtx n (p + 1) k = 0) by unfold vtx; omega),
      if_neg (Nat.ne_of_lt (vtx_lt_north n R p (m1 n k) (by omega) hm)),
      if_neg (Nat.ne_of_lt (vtx_lt_north n R (p + 1) k (by omega) hk)),
      if_neg (show ¬(p = p + 1) by omega),
      if_neg (show ¬(p = p + 1 + 1) by omega),
      if_pos rfl]

theorem code_A2 (n R p k : ℕ) (hn : 3 ≤ n) (hR : 3 ≤ R) (hp : p < R - 1) (hk : k < n) :
    edgeCode n R (famA2 n p k) = (4 + 6 * p) * n + k := by
  have hm := m1_lt n k (by omega)
  simp only [famA2, edgeCode]
  rw [vtx_decode_div n (p + 1) k (by omega) hk,
      vtx_decode_div n (p + 1) (m1 n k) (by omega) hm,
      vtx_decode_mod n (p + 1) k hk, vtx_decode_mod n (p + 1) (m1 n k) hm]
  rw [if_neg (show ¬(vtx n (p + 1) k = 0) by unfold vtx; omega),
      if_neg (show ¬(vtx n (p + 1) (m1 n k) = 0) by unfold vtx; omega),
      if_neg (Nat.ne_of_lt (vtx_lt_north n R (p + 1) k (by omega) hk)),
      if_neg (Nat.ne_of_lt (vtx_lt_north n R (p + 1) (m1 n k) (by omega) hm)),
      if_pos rfl, if_pos rfl,
      if_neg (show ¬(p + 1 = 0) by omega), Nat.add_sub_cancel]

theorem code_A3 (n R p k : ℕ) (hn : 3 ≤ n) (hR : 3 ≤ R) (hp : p < R - 1) (hk : k < n) :
    edgeCode n R (famA3 n p k) = (5 + 6 * p) * n + k := by
  have hm := m1_lt n k (by omega)
  simp only [famA3, edgeCode]
  rw [vtx_decode_div n (p + 1) (m1 n k) (by omega) hm,
      vtx_decode_div n p (m1 n k) (by omega) hm,
      vtx_decode_mod n (p + 1) (m1 n k) hm, vtx_decode_mod n p (m1 n k) hm]
  rw [if_neg (show ¬(vtx n (p + 1) (m1 n k) = 0) by unfold vtx; omega),
      if_neg (show ¬(vtx n p (m1 n k) = 0) by unfold vtx; omega),
      if_neg (Nat.ne_of_lt (vtx_lt_north n R (p + 1) (m1 n k) (by omega) hm)),
      if_neg (Nat.ne_of_lt (vtx_lt_north n R p (m1 n k) (by omega) hm)),
      if_neg (show ¬(p + 1 = p) by omega),
      if_pos rfl, if_pos rfl, m1_inv_mod n k (by omega) hk]

theorem code_B1 (n R p k : ℕ) (hn : 3 ≤ n) (hR : 3 ≤ R) (hp : p < R - 1) (hk : k < n) :
    edgeCode n R (famB1 n p k) = (6 + 6 * p) * n + k := by
  have hm := m1_lt n k (by omega)
  simp only [famB1, edgeCode]
  rw [vtx_decode_div n (p + 1) k (by omega) hk, vtx_decode_div n p (m1 n k) (by omega) hm,
      vtx_decode_mod n (p + 1) k hk, vtx_decode_mod n p (m1 n k) hm]
  rw [if_neg (show ¬(vtx n (p + 1) k = 0) by unfold vtx; omega),
      if_neg (show ¬(vtx n p (m1 n k) = 0) by unfold vtx; omega),
      if_neg (Nat.ne_of_lt (vtx_lt_north n R (p + 1) k (by omega) hk)),
      if_neg (Nat.ne_of_lt (vtx_lt_north n R p (m1 n k) (by omega) hm)),
      if_neg (show ¬(p + 1 = p) by omega),
      if_pos rfl,
      if_neg (fun h => m1_ne n k (by omega) hk h.symm)]

theorem code_B2 (n R p k : ℕ) (hn : 3 ≤ n) (hR : 3 ≤ R) (hp : p < R - 1) (hk : k < n) :
    edgeCode n R (famB2 n p k) = (7 + 6 * p) * n + k := by
  have hm := m1_lt n k (by omega)
  simp only [famB2, edgeCode]
  rw [vtx_decode_div n p (m1 n k) (by omega) hm, vtx_decode_div n p k (by omega) hk,
      vtx_decode_mod n p (m1 n k) hm, vtx_decode_mod n p k hk]
  rw [if_neg (show ¬(vtx n p (m1 n k) = 0) by unfold vtx; omega),
      if_neg (show ¬(vtx n p k = 0) by unfold vtx; omega),
      if_neg (Nat.ne_of_lt (vtx_lt_north n R p (m1 n k) (by omega) hm)),
      if_neg (Nat.ne_of_lt (vtx_lt_north n R p k (by omega) hk)),
      if_pos rfl,
      if_neg (fun h => m1_m1_ne n k hn hk h.symm),
      if_neg (show ¬(p = R - 1) by omega)]

theorem code_B3 (n R p k : ℕ) (hn : 3 ≤ n) (hR : 3 ≤ R) (hp : p < R - 1) (hk : k < n) :
    edgeCode n R (famB3 n p k) = (8 + 6 * p) * n + k := by
  simp only [famB3, edgeCode]
  rw [vtx_decode_div n p k (by omega) hk, vtx_decode_div n (p + 1) k (by omega) hk,
      vtx_decode_mod n p k hk, vtx_decode_mod n (p + 1) k hk]
  rw [if_neg (show ¬(vtx n p k = 0) by unfold vtx; omega),
      if_neg (show ¬(vtx n (p + 1) k = 0) by unfold vtx; omega),
      if_neg (Nat.ne_of_lt (vtx_lt_north n R p k (by omega) hk)),
      if_neg (Nat.ne_of_lt (vtx_lt_north n R (p + 1) k (by omega) hk)),
      if_neg (show ¬(p = p + 1) by omega),
      if_neg (show ¬(p = p + 1 + 1) by omega),
      if_neg (fun h => m1_ne n k (by omega) hk h.symm)]

theorem code_N1 (n R k : ℕ) (hn : 3 ≤ n) (hR : 3 ≤ R) (hk : k < n) :
    edgeCode n R (famN1 n R k) = (6 * R - 3) * n + k := by
  have hm := m1_lt n k (by omega)
  simp only [famN1, edgeCode]
  rw [vtx_decode_mod n (R - 1) (m1 n k) hm]
  rw [if_neg (show ¬(vtx n R 0 = 0) by unfold vtx; omega),
      if_neg (show ¬(vtx n (R - 1) (m1 n k) = 0) by unfold vtx; omega),
      if_pos (show vtx n R 0 = 1 + R * n from by unfold vtx; omega),
      m1_inv_mod n k (by omega) hk]

theorem code_N2 (n R k : ℕ) (hn : 3 ≤ n) (hR : 3 ≤ R) (hk : k < n) :
    edgeCode n R (famN2 n R k) = (6 * R - 2) * n + k := by
  have hm := m1_lt n k (by omega)
  simp only [famN2, edgeCode]
  rw [vtx_decode_div n (R - 1) (m1 n k) (by omega) hm,
      vtx_decode_div n (R - 1) k (by omega) hk,
      vtx_decode_mod n (R - 1) (m1 n k) hm, vtx_decode_mod n (R - 1) k hk]
  rw [if_neg (show ¬(vtx n (R - 1) (m1 n k) = 0) by unfold vtx; omega),
      if_neg (show ¬(vtx n (R - 1) k = 0) by unfold vtx; omega),
      if_neg (Nat.ne_of_lt (vtx_lt_north n R (R - 1) (m1 n k) (by omega) hm)),
      if_neg (Nat.ne_of_lt (vtx_lt_north n R (R - 1) k (by omega) hk)),
      if_pos rfl,
      if_neg (fun h => m1_m1_ne n k hn hk h.symm),
      if_pos rfl]

theorem code_N3 (n R k : ℕ) (hn : 3 ≤ n) (hR : 3 ≤ R) (hk : k < n) :
    edgeCode n R (famN3 n R k) = (6 * R - 1) * n + k := by
  simp only [famN3, edgeCode]
  rw [vtx_decode_mod n (R - 1) k hk]
  rw [if_neg (show ¬(vtx n (R - 1) k = 0) by unfold vtx; omega),
      if_neg (show ¬(vtx n R 0 = 0) by unfold vtx; omega),
      if_neg (Nat.ne_of_lt (vtx_lt_north n R (R - 1) k (by omega) hk)),
      if_pos (show vtx n R 0 = 1 + R * n from by unfold vtx; omega)]

theorem map_code_block (c : ℕ × ℕ → ℕ) (f : ℕ → ℕ × ℕ) (b n : ℕ)
    (h : ∀ k < n, c (f k) = b + k) :
    ((List.range n).map f).map c = List.range' b n := by
  rw [List.map_map, List.range'_eq_map_range]
  exact List.map_congr_left fun k hk => h k (List.mem_range.mp hk)

theorem glue_range' (s m t u w : ℕ) (ht : t = s + m) (hw : w = u + m) :
    List.range' s m ++ List.range' t u = List.range' s w := by
  subst ht
  subst hw
  exact List.range'_append_1 s m u

theorem blocks_glue (w : ℕ) : ∀ (T s : ℕ),
    ((List.range T).flatMap fun p => List.range' (s + w * p) w) = List.range' s (w * T) := by
  intro T
  induction T with
  | zero => intro s; simp
  | succ m ih =>
    intro s
    rw [List.range_succ, List.flatMap_append, ih, List.flatMap_cons, List.flatMap_nil,
      List.append_nil, List.range'_append_1]
    have h2 : w * m + w = w * (m + 1) := by ring
    rw [Nat.add_comm w (w * m), h2]

theorem code_bridge (n R p : ℕ) (hn : 3 ≤ n) (hR : 3 ≤ R) (hp : p < R - 1) :
    (famBridge n p).map (edgeCode n R) = List.range' (3 * n + 6 * n * p) (6 * n) := by
  unfold famBridge
  rw [List.map_append, List.map_append, List.map_append, List.map_append, List.map_append]
  rw [map_code_block (edgeCode n R) (famA1 n p) ((3 + 6 * p) * n) n
        (fun k hk => code_A1 n R p k hn hR hp hk),
      map_code_block (edgeCode n R) (famA2 n p) ((4 + 6 * p) * n) n
        (fun k hk => code_A2 n R p k hn hR hp hk),
      map_code_block (edgeCode n R) (famA3 n p) ((5 + 6 * p) * n) n
        (fun k hk => code_A3 n R p k hn hR hp hk),
      map_code_block (edgeCode n R) (famB1 n p) ((6 + 6 * p) * n) n
        (fun k hk => code_B1 n R p k hn hR hp hk),
      map_code_block (edgeCode n R) (famB2 n p) ((7 + 6 * p) * n) n
        (fun k hk => code_B2 n R p k hn hR hp hk),
      map_code_block (edgeCode n R) (famB3 n p) ((8 + 6 * p) * n) n
        (fun k hk => code_B3 n R p k hn hR hp hk)]
  rw [glue_range' ((3 + 6 * p) * n) n ((4 + 6 * p) * n) n (2 * n)
        (by ring) (by ring),
      glue_range' ((3 + 6 * p) * n) (2 * n) ((5 + 6 * p) * n) n (3 * n)
        (by ring) (by ring),
      glue_range' ((6 + 6 * p) * n) n ((7 + 6 * p) * n) n (2 * n)
        (by ring) (by ring),
      glue_range' ((6 + 6 * p) * n) (2 * n) ((8 + 6 * p) * n) n (3 * n)
        (by ring) (by ring),
      glue_range' ((3 + 6 * p) * n) (3 * n) ((6 + 6 * p) * n) (3 * n) (6 * n)
        (by ring) (by ring),
      show (3 + 6 * p) * n = 3 * n + 6 * n * p from by ring]

theorem flatMap_congr_eq {α β : Type} {l : List α} {f g : α → List β}
    (h : ∀ a ∈ l, f a = g a) : l.flatMap f = l.flatMap g := by
  induction l with
  | nil => rfl
  | cons a t ih =>
    simp only [List.flatMap_cons]
    rw [h a (List.mem_cons_self a t), ih fun x hx => h x (List.mem_cons_of_mem a hx)]

theorem code_reorg (n R : ℕ) (hn : 3 ≤ n) (hR : 3 ≤ R) :
    (reorgEdges n R).map (edgeCode n R) = List.range' 0 (6 * R * n) := by
  obtain ⟨L, rfl⟩ : ∃ L, R = L + 3 := ⟨R - 3, by omega⟩
  unfold reorgEdges
  rw [List.map_append, List.map_append, List.map_append, List.map_append,
      List.map_append, List.map_append]
  rw [List.map_flatMap]
  rw [show L + 3 - 1 = L + 2 from by omega]
  rw [map_code_block (edgeCode n (L + 3)) (famS1 n) 0 n
        (fun k hk => code_S1 n (L + 3) k hk),
      map_code_block (edgeCode n (L + 3)) (famS2 n) n n
        (fun k hk => code_S2 n (L + 3) k hn hR hk),
      map_code_block (edgeCode n (L + 3)) (famS3 n) (2 * n) n
        (fun k hk => code_S3 n (L + 3) k hn hk),
      map_code_block (edgeCode n (L + 3)) (famN1 n (L + 3)) ((6 * (L + 3) - 3) * n) n
        (fun k hk => code_N1 n (L + 3) k hn hR hk),
      map_code_block (edgeCode n (L + 3)) (famN2 n (L + 3)) ((6 * (L + 3) - 2) * n) n
        (fun k hk => code_N2 n (L + 3) k hn hR hk),
      map_code_block (edgeCode n (L + 3)) (famN3 n (L + 3)) ((6 * (L + 3) - 1) * n) n
        (fun k hk => code_N3 n (L + 3) k hn hR hk)]
  rw [flatMap_congr_eq fun p hp =>
        code_bridge n (L + 3) p hn hR (by
          have := List.mem_range.mp hp
          omega)]
  rw [blocks_glue (6 * n) (L + 2) (3 * n)]
  rw [show (6 * (L + 3) - 3) = 6 * L + 15 from by omega,
      show (6 * (L + 3) - 2) = 6 * L + 16 from by omega,
      show (6 * (L + 3) - 1) = 6 * L + 17 from by omega]
  rw [glue_range' 0 n n n (2 * n) (by ring) (by ring),
      glue_range' 0 (2 * n) (2 * n) n (3 * n) (by ring) (by ring),
      glue_range' 0 (3 * n) (3 * n) (6 * n * (L + 2)) ((6 * L + 15) * n)
        (by ring) (by ring),
      glue_range' ((6 * L + 15) * n) n ((6 * L + 16) * n) n (2 * n) (by ring) (by ring),
      glue_range' ((6 * L + 15) * n) (2 * n) ((6 * L + 17) * n) n (3 * n)
        (by ring) (by ring),
      glue_range' 0 ((6 * L + 15) * n) ((6 * L + 15) * n) (3 * n) ((6 * L + 18) * n)
        (by ring) (by ring)]
  rw [show 6 * (L + 3) * n = (6 * L + 18) * n from by ring]

theorem nodup_reorg (n R : ℕ) (hn : 3 ≤ n) (hR : 3 ≤ R) : (reorgEdges n R).Nodup := by
  have h := code_reorg n R hn hR
  have h2 : ((reorgEdges n R).map (edgeCode n R)).Nodup := by
    rw [h]
    exact List.nodup_range' 0 (6 * R * n) 1 Nat.one_pos
  exact h2.of_map (edgeCode n R)

theorem mem_reorg_S1 (n R j : ℕ) (hj : j < n) : famS1 n j ∈ reorgEdges n R := by
  unfold reorgEdges
  exact List.mem_append.mpr (Or.inl (List.mem_append.mpr (Or.inl
    (List.mem_append.mpr (Or.inl (List.mem_append.mpr (Or.inl
      (List.mem_map.mpr ⟨j, List.mem_range.mpr hj, rfl⟩))))))))

theorem mem_reorg_S2 (n R j : ℕ) (hj : j < n) : famS2 n j ∈ reorgEdges n R := by
  unfold reorgEdges
  exact List.mem_append.mpr (Or.inl (List.mem_append.mpr (Or.inl
    (List.mem_append.mpr (Or.inl (List.mem_append.mpr (Or.inr
      (List.mem_map.mpr ⟨j, List.mem_range.mpr hj, rfl⟩))))))))

theorem mem_reorg_S3 (n R j : ℕ) (hj : j < n) : famS3 n j ∈ reorgEdges n R := by
  unfold reorgEdges
  exact List.mem_append.mpr (Or.inl (List.mem_append.mpr (Or.inl
    (List.mem_append.mpr (Or.inr (List.mem_map.mpr ⟨j, List.mem_range.mpr hj, rfl⟩))))))

theorem mem_reorg_bridge (n R p : ℕ) (hp : p < R - 1) {x : ℕ × ℕ}
    (hx : x ∈ famBridge n p) : x ∈ reorgEdges n R := by
  unfold reorgEdges
  exact List.mem_append.mpr (Or.inl (List.mem_append.mpr (Or.inr
    (List.mem_flatMap.mpr ⟨p, List.mem_range.mpr hp, hx⟩))))

theorem mem_reorg_N1 (n R j : ℕ) (hj : j < n) : famN1 n R j ∈ reorgEdges n R := by
  unfold reorgEdges
  exact List.mem_append.mpr (Or.inr (List.mem_append.mpr (Or.inl
    (List.mem_append.mpr (Or.inl (List.mem_map.mpr ⟨j, List.mem_range.mpr hj, rfl⟩))))))

theorem mem_reorg_N2 (n R j : ℕ) (hj : j < n) : famN2 n R j ∈ reorgEdges n R := by
  unfold reorgEdges
  exact List.mem_append.mpr (Or.inr (List.mem_append.mpr (Or.inl
    (List.mem_append.mpr (Or.inr (List.mem_map.mpr ⟨j, List.mem_range.mpr hj, rfl⟩))))))

theorem mem_reorg_N3 (n R j : ℕ) (hj : j < n) : famN3 n R j ∈ reorgEdges n R := by
  unfold reorgEdges
  exact List.mem_append.mpr (Or.inr (List.mem_append.mpr (Or.inr
    (List.mem_map.mpr ⟨j, List.mem_range.mpr hj, rfl⟩))))

theorem mem_bridge_A1 (n p j : ℕ) (hj : j < n) : famA1 n p j ∈ famBridge n p := by
  unfold famBridge
  exact List.mem_append.mpr (Or.inl (List.mem_append.mpr (Or.inl
    (List.mem_append.mpr (Or.inl (List.mem_map.mpr ⟨j, List.mem_range.mpr hj, rfl⟩))))))

theorem mem_bridge_A2 (n p j : ℕ) (hj : j < n) : famA2 n p j ∈ famBridge n p := by
  unfold famBridge
  exact List.mem_append.mpr (Or.inl (List.mem_append.mpr (Or.inl
    (List.mem_append.mpr (Or.inr (List.mem_map.mpr ⟨j, List.mem_range.mpr hj, rfl⟩))))))

theorem mem_bridge_A3 (n p j : ℕ) (hj : j < n) : famA3 n p j ∈ famBridge n p := by
  unfold famBridge
  exact List.mem_append.mpr (Or.inl (List.mem_append.mpr (Or.inr
    (List.mem_map.mpr ⟨j, List.mem_range.mpr hj, rfl⟩))))

theorem mem_bridge_B1 (n p j : ℕ) (hj : j < n) : famB1 n p j ∈ famBridge n p := by
  unfold famBridge
  exact List.mem_append.mpr (Or.inr (List.mem_append.mpr (Or.inl
    (List.mem_append.mpr (Or.inl (List.mem_map.mpr ⟨j, List.mem_range.mpr hj, rfl⟩))))))

theorem mem_bridge_B2 (n p j : ℕ) (hj : j < n) : famB2 n p j ∈ famBridge n p := by
  unfold famBridge
  exact List.mem_append.mpr (Or.inr (List.mem_append.mpr (Or.inl
    (List.mem_append.mpr (Or.inr (List.mem_map.mpr ⟨j, List.mem_range.mpr hj, rfl⟩))))))

theorem mem_bridge_B3 (n p j : ℕ) (hj : j < n) : famB3 n p j ∈ famBridge n p := by
  unfold famBridge
  exact List.mem_append.mpr (Or.inr (List.mem_append.mpr (Or.inr
    (List.mem_map.mpr ⟨j, List.mem_range.mpr hj, rfl⟩))))

theorem succ_ring_base (n R : ℕ) (hR : 1 ≤ R) : (R - 1) * n + n = R * n := by
  have h2 : R - 1 + 1 = R := by omega
  calc (R - 1) * n + n = (R - 1 + 1) * n := (Nat.succ_mul _ _).symm
    _ = R * n := by rw [h2]

theorem reorg_edge_props (n R : ℕ) (hn : 3 ≤ n) (hR : 3 ≤ R) :
    ∀ d ∈ reorgEdges n R, d.1 ≠ d.2 ∧ (d.2, d.1) ∈ reorgEdges n R := by
  intro d hd
  have hn0 : (0 : ℕ) < n := by omega
  simp only [reorgEdges, List.mem_append] at hd
  rcases hd with ((((h | h) | h) | h) | (h | h) | h)
  · -- south-fan edge (pole, ring0[k])
    obtain ⟨k, hk, rfl⟩ := List.mem_map.mp h
    have hk' := List.mem_range.mp hk
    refine ⟨?_, ?_⟩
    · show (0 : ℕ) ≠ vtx n 0 k
      unfold vtx
      omega
    · show (vtx n 0 k, 0) ∈ reorgEdges n R
      have he : famS3 n ((k + 1) % n) = (vtx n 0 k, 0) := by
        unfold famS3
        rw [m1_succ_mod n k (by omega) hk']
      exact he ▸ mem_reorg_S3 n R ((k + 1) % n) (Nat.mod_lt _ hn0)
  · -- south ring edge (ring0[k], ring0[k-1])
    obtain ⟨k, hk, rfl⟩ := List.mem_map.mp h
    have hk' := List.mem_range.mp hk
    have hm := m1_ne n k (by omega) hk'
    refine ⟨?_, ?_⟩
    · show vtx n 0 k ≠ vtx n 0 (m1 n k)
      unfold vtx
      omega
    · show (vtx n 0 (m1 n k), vtx n 0 k) ∈ reorgEdges n R
      exact mem_reorg_bridge n R 0 (by omega) (mem_bridge_B2 n 0 k hk')
  · -- south-fan closing edge (ring0[k-1], pole)
    obtain ⟨k, hk, rfl⟩ := List.mem_map.mp h
    have hk' := List.mem_range.mp hk
    refine ⟨?_, ?_⟩
    · show vtx n 0 (m1 n k) ≠ 0
      unfold vtx
      omega
    · show ((0 : ℕ), vtx n 0 (m1 n k)) ∈ reorgEdges n R
      exact mem_reorg_S1 n R (m1 n k) (m1_lt n k hn0)
  · -- bridge edges
    obtain ⟨p, hpm, hx⟩ := List.mem_flatMap.mp h
    have hp := List.mem_range.mp hpm
    have hpn : (p + 1) * n = p * n + n := Nat.succ_mul p n
    simp only [famBridge, List.mem_append] at hx
    rcases hx with ((h | h) | h) | (h | h) | h
    · -- A1: (prev[k-1], cur[k])
      obtain ⟨k, hk, rfl⟩ := List.mem_map.mp h
      have hk' := List.mem_range.mp hk
      have hm := m1_lt n k hn0
      refine ⟨?_, ?_⟩
      · show vtx n p (m1 n k) ≠ vtx n (p + 1) k
        unfold vtx
        omega
      · show (vtx n (p + 1) k, vtx n p (m1 n k)) ∈ reorgEdges n R
        exact mem_reorg_bridge n R p hp (mem_bridge_B1 n p k hk')
    · -- A2: (cur[k], cur[k-1])
      obtain ⟨k, hk, rfl⟩ := List.mem_map.mp h
      have hk' := List.mem_range.mp hk
      have hm := m1_ne n k (by omega) hk'
      refine ⟨?_, ?_⟩
      · show vtx n (p + 1) k ≠ vtx n (p + 1) (m1 n k)
        unfold vtx
        omega
      · show (vtx n (p + 1) (m1 n k), vtx n (p + 1) k) ∈ reorgEdges n R
        by_cases hpR : p + 1 = R - 1
        · have he : famN2 n R k = (vtx n (p + 1) (m1 n k), vtx n (p + 1) k) := by
            unfold famN2
            rw [← hpR]
          exact he ▸ mem_reorg_N2 n R k hk'
        · exact mem_reorg_bridge n R (p + 1) (by omega) (mem_bridge_B2 n (p + 1) k hk')
    · -- A3: (cur[k-1], prev[k-1])
      obtain ⟨k, hk, rfl⟩ := List.mem_map.mp h
      have hk' := List.mem_range.mp hk
      have hm := m1_lt n k hn0
      refine ⟨?_, ?_⟩
      · show vtx n (p + 1) (m1 n k) ≠ vtx n p (m1 n k)
        unfold vtx
        omega
      · show (vtx n p (m1 n k), vtx n (p + 1) (m1 n k)) ∈ reorgEdges n R
        exact mem_reorg_bridge n R p hp (mem_bridge_B3 n p (m1 n k) hm)
    · -- B1: (cur[k], prev[k-1])
      obtain ⟨k, hk, rfl⟩ := List.mem_map.mp h
      have hk' := List.mem_range.mp hk
      have hm := m1_lt n k hn0
      refine ⟨?_, ?_⟩
      · show vtx n (p + 1) k ≠ vtx n p (m1 n k)
        unfold vtx
        omega
      · show (vtx n p (m1 n k), vtx n (p + 1) k) ∈ reorgEdges n R
        exact mem_reorg_bridge n R p hp (mem_bridge_A1 n p k hk')
    · -- B2: (prev[k-1], prev[k])
      obtain ⟨k, hk, rfl⟩ := List.mem_map.mp h
      have hk' := List.mem_range.mp hk
      have hm := m1_ne n k (by omega) hk'
      refine ⟨?_, ?_⟩
      · show vtx n p (m1 n k) ≠ vtx n p k
        unfold vtx
        omega
      · show (vtx n p k, vtx n p (m1 n k)) ∈ reorgEdges n R
        cases p with
        | zero => exact mem_reorg_S2 n R k hk'
        | succ q =>
          exact mem_reorg_bridge n R q (by omega) (mem_bridge_A2 n q k hk')
    · -- B3: (prev[k], cur[k])
      obtain ⟨k, hk, rfl⟩ := List.mem_map.mp h
      have hk' := List.mem_range.mp hk
      refine ⟨?_, ?_⟩
      · show vtx n p k ≠ vtx n (p + 1) k
        unfold vtx
        omega
      · show (vtx n (p + 1) k, vtx n p k) ∈ reorgEdges n R
        have he : famA3 n p ((k + 1) % n) = (vtx n (p + 1) k, vtx n p k) := by
          unfold famA3
          rw [m1_succ_mod n k (by omega) hk']
        exact he ▸ mem_reorg_bridge n R p hp (mem_bridge_A3 n p ((k + 1) % n) (Nat.mod_lt _ hn0))
  · -- N1: (north pole, last[k-1])
    obtain ⟨k, hk, rfl⟩ := List.mem_map.mp h
    have hk' := List.mem_range.mp hk
    have hm := m1_lt n k hn0
    have hb := succ_ring_base n R (by omega)
    refine ⟨?_, ?_⟩
    · show vtx n R 0 ≠ vtx n (R - 1) (m1 n k)
      unfold vtx
      omega
    · show (vtx n (R - 1) (m1 n k), vtx n R 0) ∈ reorgEdges n R
      exact mem_reorg_N3 n R (m1 n k) hm
  · -- N2: (last[k-1], last[k])
    obtain ⟨k, hk, rfl⟩ := List.mem_map.mp h
    have hk' := List.mem_range.mp hk
    have hm := m1_ne n k (by omega) hk'
    refine ⟨?_, ?_⟩
    · show vtx n (R - 1) (m1 n k) ≠ vtx n (R - 1) k
      unfold vtx
      omega
    · show (vtx n (R - 1) k, vtx n (R - 1) (m1 n k)) ∈ reorgEdges n R
      have he : famA2 n (R - 2) k = (vtx n (R - 1) k, vtx n (R - 1) (m1 n k)) := by
        unfold famA2
        rw [show R - 2 + 1 = R - 1 from by omega]
      exact he ▸ mem_reorg_bridge n R (R - 2) (by omega) (mem_bridge_A2 n (R - 2) k hk')
  · -- N3: (last[k], north pole)
    obtain ⟨k, hk, rfl⟩ := List.mem_map.mp h
    have hk' := List.mem_range.mp hk
    have hb := succ_ring_base n R (by omega)
    refine ⟨?_, ?_⟩
    · show vtx n (R - 1) k ≠ vtx n R 0
      unfold vtx
      omega
    · show (vtx n R 0, vtx n (R - 1) k) ∈ reorgEdges n R
      have he : famN1 n R ((k + 1) % n) = (vtx n R 0, vtx n (R - 1) k) := by
        unfold famN1
        rw [m1_succ_mod n k (by omega) hk']
      exact he ▸ mem_reorg_N1 n R ((k + 1) % n) (Nat.mod_lt _ hn0)

theorem countP_eq_one_of_nodup {α : Type} [DecidableEq α] :
    ∀ {l : List α}, l.Nodup → ∀ {a : α}, a ∈ l →
      l.countP (fun e => decide (e = a)) = 1 := by
  intro l
  induction l with
  | nil => intro _ a ha; cases ha
  | cons x t ih =>
    intro hnd a ha
    rw [List.nodup_cons] at hnd
    rw [List.countP_cons]
    rcases List.mem_cons.mp ha with rfl | hat
    · have h0 : t.countP (fun e => decide (e = a)) = 0 :=
        List.countP_eq_zero.mpr fun b hb => by
          simp only [decide_eq_true_eq]
          rintro rfl
          exact hnd.1 hb
      simp [h0]
    · have hxa : x ≠ a := fun h => hnd.1 (h ▸ hat)
      simp [ih hnd.2 hat, hxa]

theorem countP_disj_or {α : Type} [DecidableEq α] (a b : α) (hab : a ≠ b) (l : List α) :
    l.countP (fun e => decide (e = a ∨ e = b)) =
      l.countP (fun e => decide (e = a)) + l.countP (fun e => decide (e = b)) := by
  induction l with
  | nil => rfl
  | cons x t ih =>
    rw [List.countP_cons, List.countP_cons, List.countP_cons, ih]
    by_cases hxa : x = a
    · subst hxa
      have hxb : ¬(x = b) := hab
      simp [hxb]
      omega
    · by_cases hxb : x = b
      · have hba : ¬(b = a) := fun h => hab h.symm
        simp [hxa, hxb, hba]
        omega
      · simp [hxa, hxb]

theorem flat_count_two (n R : ℕ) (hn : 3 ≤ n) (hR : 3 ≤ R) (d : ℕ × ℕ)
    (hd : d ∈ dirEdgeList (sphereTris n R)) :
    (dirEdgeList (sphereTris n R)).countP
      (fun e => decide (e = d ∨ e = (d.2, d.1))) = 2 := by
  have hperm := reorg_perm n R
  have hd0 : d ∈ reorgEdges n R := hperm.mem_iff.mp hd
  obtain ⟨hne, hsw⟩ := reorg_edge_props n R hn hR d hd0
  have hnd := nodup_reorg n R hn hR
  have hds : d ≠ (d.2, d.1) := fun h => hne (congrArg Prod.fst h)
  rw [hperm.countP_eq, countP_disj_or d (d.2, d.1) hds (reorgEdges n R),
      countP_eq_one_of_nodup hnd hd0, countP_eq_one_of_nodup hnd hsw]

theorem tri_count (x y a b c : ℕ) (h12 : a ≠ b) (h23 : b ≠ c) (h31 : c ≠ a)
    (hd : x ≠ y) :
    (dirEdges (a, b, c)).countP (fun e => decide (e = (x, y) ∨ e = (y, x))) =
      if (x, y) ∈ dirEdges (a, b, c) ∨ (y, x) ∈ dirEdges (a, b, c) then 1 else 0 := by
  simp only [dirEdges, List.countP_cons, List.countP_nil, List.mem_cons,
    List.not_mem_nil, or_false, Prod.mk.injEq, decide_eq_true_eq]
  have hM_iff : ((x = a ∧ y = b ∨ x = b ∧ y = c ∨ x = c ∧ y = a) ∨
      y = a ∧ x = b ∨ y = b ∧ x = c ∨ y = c ∧ x = a) ↔
      ((a = x ∧ b = y ∨ a = y ∧ b = x) ∨ (b = x ∧ c = y ∨ b = y ∧ c = x) ∨
        (c = x ∧ a = y ∨ c = y ∧ a = x)) := by
    constructor
    · rintro ((⟨h1, h2⟩ | ⟨h1, h2⟩ | ⟨h1, h2⟩) | (⟨h1, h2⟩ | ⟨h1, h2⟩ | ⟨h1, h2⟩))
      · exact Or.inl (Or.inl ⟨h1.symm, h2.symm⟩)
      · exact Or.inr (Or.inl (Or.inl ⟨h1.symm, h2.symm⟩))
      · exact Or.inr (Or.inr (Or.inl ⟨h1.symm, h2.symm⟩))
      · exact Or.inl (Or.inr ⟨h1.symm, h2.symm⟩)
      · exact Or.inr (Or.inl (Or.inr ⟨h1.symm, h2.symm⟩))
      · exact Or.inr (Or.inr (Or.inr ⟨h1.symm, h2.symm⟩))
    · rintro ((⟨h1, h2⟩ | ⟨h1, h2⟩) | (⟨h1, h2⟩ | ⟨h1, h2⟩) | (⟨h1, h2⟩ | ⟨h1, h2⟩))
      · exact Or.inl (Or.inl ⟨h1.symm, h2.symm⟩)
      · exact Or.inr (Or.inl ⟨h1.symm, h2.symm⟩)
      · exact Or.inl (Or.inr (Or.inl ⟨h1.symm, h2.symm⟩))
      · exact Or.inr (Or.inr (Or.inl ⟨h1.symm, h2.symm⟩))
      · exact Or.inl (Or.inr (Or.inr ⟨h1.symm, h2.symm⟩))
      · exact Or.inr (Or.inr (Or.inr ⟨h1.symm, h2.symm⟩))
  have hQ12 : ¬((a = x ∧ b = y ∨ a = y ∧ b = x) ∧ (b = x ∧ c = y ∨ b = y ∧ c = x)) := by
    rintro ⟨⟨h1, h2⟩ | ⟨h1, h2⟩, ⟨h3, h4⟩ | ⟨h3, h4⟩⟩ <;> omega
  have hQ13 : ¬((a = x ∧ b = y ∨ a = y ∧ b = x) ∧ (c = x ∧ a = y ∨ c = y ∧ a = x)) := by
    rintro ⟨⟨h1, h2⟩ | ⟨h1, h2⟩, ⟨h3, h4⟩ | ⟨h3, h4⟩⟩ <;> omega
  have hQ23 : ¬((b = x ∧ c = y ∨ b = y ∧ c = x) ∧ (c = x ∧ a = y ∨ c = y ∧ a = x)) := by
    rintro ⟨⟨h1, h2⟩ | ⟨h1, h2⟩, ⟨h3, h4⟩ | ⟨h3, h4⟩⟩ <;> omega
  by_cases hQ1 : a = x ∧ b = y ∨ a = y ∧ b = x
  · by_cases hQ2 : b = x ∧ c = y ∨ b = y ∧ c = x
    · exact absurd ⟨hQ1, hQ2⟩ hQ12
    · by_cases hQ3 : c = x ∧ a = y ∨ c = y ∧ a = x
      · exact absurd ⟨hQ1, hQ3⟩ hQ13
      · rw [if_pos hQ1, if_neg hQ2, if_neg hQ3, if_pos (hM_iff.mpr (Or.inl hQ1))]
  · by_cases hQ2 : b = x ∧ c = y ∨ b = y ∧ c = x
    · by_cases hQ3 : c = x ∧ a = y ∨ c = y ∧ a = x
      · exact absurd ⟨hQ2, hQ3⟩ hQ23
      · rw [if_pos hQ2, if_neg hQ1, if_neg hQ3,
          if_pos (hM_iff.mpr (Or.inr (Or.inl hQ2)))]
    · by_cases hQ3 : c = x ∧ a = y ∨ c = y ∧ a = x
      · rw [if_pos hQ3, if_neg hQ1, if_neg hQ2,
          if_pos (hM_iff.mpr (Or.inr (Or.inr hQ3)))]
      · rw [if_neg hQ1, if_neg hQ2, if_neg hQ3,
          if_neg (fun hMM => by
            rcases hM_iff.mp hMM with h | h | h
            exacts [hQ1 h, hQ2 h, hQ3 h])]

theorem countP_flatMap_two {α β : Type} (p : β → Bool) (P : α → Prop) [DecidablePred P] :
    ∀ (l : List α) (g : α → List β),
      (∀ a ∈ l, (g a).countP p = if P a then 1 else 0) →
      (l.flatMap g).countP p = l.countP (fun a => decide (P a)) := by
  intro l
  induction l with
  | nil => intro g _; rfl
  | cons a t ih =>
    intro g h
    rw [List.flatMap_cons, List.countP_append, List.countP_cons,
        h a (List.mem_cons_self a t), ih g (fun x hx => h x (List.mem_cons_of_mem a hx))]
    by_cases hP : P a
    · simp [hP]
      omega
    · simp [hP]

theorem sphere_manifold (n R : ℕ) (hn : 3 ≤ n) (hR : 3 ≤ R) :
    ∀ d ∈ dirEdgeList (sphereTris n R), d.1 ≠ d.2 ∧
      (sphereTris n R).countP
        (fun t => decide (d ∈ dirEdges t ∨ (d.2, d.1) ∈ dirEdges t)) = 2 := by
  have hperm := reorg_perm n R
  have hprops := reorg_edge_props n R hn hR
  have hdist : ∀ t ∈ sphereTris n R, t.1 ≠ t.2.1 ∧ t.2.1 ≠ t.2.2 ∧ t.2.2 ≠ t.1 := by
    intro t ht
    have e1 : (t.1, t.2.1) ∈ dirEdgeList (sphereTris n R) :=
      List.mem_flatMap.mpr ⟨t, ht, by simp [dirEdges]⟩
    have e2 : (t.2.1, t.2.2) ∈ dirEdgeList (sphereTris n R) :=
      List.mem_flatMap.mpr ⟨t, ht, by simp [dirEdges]⟩
    have e3 : (t.2.2, t.1) ∈ dirEdgeList (sphereTris n R) :=
      List.mem_flatMap.mpr ⟨t, ht, by simp [dirEdges]⟩
    exact ⟨(hprops _ (hperm.mem_iff.mp e1)).1, (hprops _ (hperm.mem_iff.mp e2)).1,
      (hprops _ (hperm.mem_iff.mp e3)).1⟩
  intro d hd
  have hne : d.1 ≠ d.2 := (hprops d (hperm.mem_iff.mp hd)).1
  refine ⟨hne, ?_⟩
  have hconv := countP_flatMap_two (fun e => decide (e = d ∨ e = (d.2, d.1)))
    (fun t => d ∈ dirEdges t ∨ (d.2, d.1) ∈ dirEdges t) (sphereTris n R) dirEdges
    (fun t ht => by
      obtain ⟨h12, h23, h31⟩ := hdist t ht
      exact tri_count d.1 d.2 t.1 t.2.1 t.2.2 h12 h23 h31 hne)
  rw [← hconv]
  exact flat_count_two n R hn hR d hd


/-- C4: for every valid input the generated triangle list is a closed
watertight manifold: the generator succeeds, every directed edge of every
emitted triangle joins two distinct vertex identities, and each undirected
edge (the pair together with its reversal) appears in exactly two of the
emitted triangles. -/
theorem claim_C4 (radius : ℝ) (segments rings : ℕ)
    (h1 : 0 < radius) (h2 : 3 ≤ segments) (h3 : 3 ≤ rings) :
    ∃ m : Mesh, get_uv_sphere_geom radius segments rings = .ok m ∧
      ∀ d ∈ dirEdgeList m.triangles, d.1 ≠ d.2 ∧
        m.triangles.countP
          (fun t => decide (d ∈ dirEdges t ∨ (d.2, d.1) ∈ dirEdges t)) = 2 := by
  refine ⟨⟨sphereVerts radius segments rings, sphereTris segments rings⟩,
    get_uv_sphere_geom_ok radius segments rings h1 h2 h3, ?_⟩
  intro d hd
  exact sphere_manifold segments rings h2 h3 d hd

/-- C4 witness at `radius = 1`, `segments = 3`, `rings = 3`. -/
theorem claim_C4_witness :
    ∃ m : Mesh, get_uv_sphere_geom 1 3 3 = .ok m ∧
      ∀ d ∈ dirEdgeList m.triangles, d.1 ≠ d.2 ∧
        m.triangles.countP
          (fun t => decide (d ∈ dirEdges t ∨ (d.2, d.1) ∈ dirEdges t)) = 2 :=
  claim_C4 1 3 3 (by norm_num) (by norm_num) (by norm_num)

end ProcGen
